import Mathlib

/-!
# SurfStore: consistent hash ring and metadata store

A shallow embedding of `src/surfstore/ConsistentHashRing.go` and
`src/surfstore/MetaStore.go`, followed by theorems about the embedded
functions.

Conventions of the embedding.

* Go `int` values are modelled as `Int`.  The ring functions only compare
  indices; the single addition on stored data (`Version + 1` in `UpdateFile`)
  goes through `addInt`, which wraps at 64 bits as the machine addition does.
* A Go run-time panic (index out of range, division by zero inside
  `big.Int.Mod`) is the result `none`.
* A Go `map` is a finite association list with unique keys (`AList`); a
  lookup of a missing key yields the zero value at the place of use.
* The remote calls of `MetaStore.AddNode` and `MetaStore.RemoveNode` go
  through a `Network` value that gives the outcome of each of them.
* `sha256.Sum256` is library code; every function that calls it takes the
  digest function as its first argument `Sum256`, from the text of an address
  to the list of digest bytes.
-/

namespace Surfstore

/-! ## Data model -/

/-- The struct `Node` of ConsistentHashRing.go. -/
structure Node where
  Addr : String
  Index : Int
deriving DecidableEq

/-- The struct `ConsistentHashRing` of ConsistentHashRing.go. -/
structure ConsistentHashRing where
  RingSize : Int
  Nodes : List Node
deriving DecidableEq

/-! ## Hashing helpers (encoding/hex, math/big) -/

/-- Value of one hexadecimal digit, following the reverse table of
`encoding/hex`; `none` for any other character. -/
def hexDigit (c : Char) : Option Nat :=
  if '0' ≤ c ∧ c ≤ '9' then some (c.toNat - 48)
  else if 'a' ≤ c ∧ c ≤ 'f' then some (c.toNat - 87)
  else if 'A' ≤ c ∧ c ≤ 'F' then some (c.toNat - 55)
  else none

/-- The bytes `hex.DecodeString` returns: digits are consumed in pairs and the
bytes decoded before the first invalid digit (or before a dangling last digit)
are returned; `HashMod` discards the error value. -/
def hexDecode : List Char → List Nat
  | p :: q :: rest =>
    match hexDigit p, hexDigit q with
    | some a, some b => (a * 16 + b) :: hexDecode rest
    | _, _ => []
  | _ => []

/-- One digit of `hex.EncodeToString` (the table "0123456789abcdef"). -/
def hexChar (n : Nat) : Char :=
  "0123456789abcdef".data.getD n '0'

/-- The function `hex.EncodeToString` on a list of bytes. -/
def hexEncode (bs : List Nat) : String :=
  String.mk (bs.flatMap fun b => [hexChar (b / 16 % 16), hexChar (b % 16)])

/-- The function `big.Int.SetBytes`: the bytes read as a big-endian unsigned
integer. -/
def setBytes (bs : List Nat) : Nat :=
  bs.foldl (fun acc b => acc * 256 + b) 0

/-- The function `HashMod`.  `big.Int.Mod` is the Euclidean modulus and panics
on a zero modulus. -/
def HashMod (hashString : String) (ringSize : Int) : Option Int :=
  if ringSize = 0 then none
  else some ((setBytes (hexDecode hashString.data) : Int) % ringSize)

/-- The method `ComputeBlockIndex`. -/
def ConsistentHashRing.ComputeBlockIndex (ms : ConsistentHashRing)
    (blockHash : String) : Option Int :=
  HashMod blockHash ms.RingSize

/-- The method `ComputeNodeIndex`. -/
def ConsistentHashRing.ComputeNodeIndex (Sum256 : String → List Nat)
    (ms : ConsistentHashRing) (nodeAddr : String) : Option Int :=
  HashMod (hexEncode (Sum256 nodeAddr)) ms.RingSize

/-! ## Ring lookups -/

/-- The loop of `FindHostingNode`: the first node with `Index ≥ ringIndex`,
`none` when the loop runs to its end. -/
def FindHostingNode.scan (ringIndex : Int) : List Node → Option Node
  | [] => none
  | n :: rest =>
    if n.Index ≥ ringIndex then some n else FindHostingNode.scan ringIndex rest

/-- The method `FindHostingNode`; after the loop it returns `newNodeList[0]`,
which panics on an empty list. -/
def ConsistentHashRing.FindHostingNode (ms : ConsistentHashRing)
    (ringIndex : Int) : Option Node :=
  match FindHostingNode.scan ringIndex ms.Nodes with
  | some n => some n
  | none => ms.Nodes.head?

/-- The loop of `PrecedingNode`, started with the running value `pre`:
`some` is the value returned from inside the loop, `none` means the loop ran
to its end. -/
def PrecedingNode.scan (ringIndex : Int) : Node → List Node → Option Node
  | _, [] => none
  | pre, n :: rest =>
    if n.Index < ringIndex then PrecedingNode.scan ringIndex n rest
    else some pre

/-- The method `PrecedingNode`; reading `ms.Nodes[len(ms.Nodes)-1]` panics on
an empty list. -/
def ConsistentHashRing.PrecedingNode (ms : ConsistentHashRing)
    (ringIndex : Int) : Option Node :=
  match ms.Nodes.getLast? with
  | none => none
  | some last =>
    match PrecedingNode.scan ringIndex last ms.Nodes with
    | some n => some n
    | none => some last

/-! ## Ring mutations -/

/-- The middle loop of `ConsistentHashRing.AddNode`, over the neighbouring
pairs `currList[i]`, `currList[i+1]` for `i < len(currList)-1`. -/
def AddNode.scan (newNode : Node) : List Node → List Node
  | a :: b :: rest =>
    if a.Index < newNode.Index ∧ b.Index > newNode.Index then
      a :: newNode :: AddNode.scan newNode (b :: rest)
    else a :: AddNode.scan newNode (b :: rest)
  | _ => []

/-- The method `ConsistentHashRing.AddNode`.  It panics when `RingSize` is 0
(inside `HashMod`) and when the node list is empty (`currList[0]`). -/
def ConsistentHashRing.AddNode (Sum256 : String → List Nat)
    (ms : ConsistentHashRing) (nodeAddr : String) : Option ConsistentHashRing :=
  match HashMod (hexEncode (Sum256 nodeAddr)) ms.RingSize with
  | none => none
  | some newNodeIndex =>
    let newNode : Node := { Addr := nodeAddr, Index := newNodeIndex }
    match ms.Nodes.head?, ms.Nodes.getLast? with
    | some first, some last =>
      let r1 := if newNodeIndex < first.Index then [newNode] else []
      let r2 := r1 ++ AddNode.scan newNode ms.Nodes
      let r3 := r2 ++ [last]
      let r4 := if newNodeIndex > last.Index then r3 ++ [newNode] else r3
      some { ms with Nodes := r4 }
    | _, _ => none

/-- The method `ConsistentHashRing.RemoveNode`.  It panics when `RingSize` is
0 (inside `HashMod`). -/
def ConsistentHashRing.RemoveNode (Sum256 : String → List Nat)
    (ms : ConsistentHashRing) (nodeAddr : String) : Option ConsistentHashRing :=
  match HashMod (hexEncode (Sum256 nodeAddr)) ms.RingSize with
  | none => none
  | some badNodeIndex =>
    some { ms with Nodes := ms.Nodes.filter fun n => n.Index ≠ badNodeIndex }

/-! ## Ring construction -/

/-- The first loop of `NewConsistentHashRing`: one node per address, in input
order.  `HashMod` panics when `ringSize` is 0. -/
def NewConsistentHashRing.hashAll (Sum256 : String → List Nat) (ringSize : Int) :
    List String → Option (List Node)
  | [] => some []
  | a :: rest =>
    match HashMod (hexEncode (Sum256 a)) ringSize with
    | none => none
    | some modVal =>
      match NewConsistentHashRing.hashAll Sum256 ringSize rest with
      | none => none
      | some r => some ({ Addr := a, Index := modVal } :: r)

/-- The second loop of `NewConsistentHashRing`: `sortMap[Index] = Addr`, a
later entry overwriting an earlier one with the same index. -/
def NewConsistentHashRing.sortMap (result : List Node) : AList fun _ : Int => String :=
  result.foldl (fun sm n => sm.insert n.Index n.Addr) ∅

/-- The function `NewConsistentHashRing`.  `sort.Ints` is modelled by
insertion sort: for integers the ascending arrangement of a list is unique. -/
def NewConsistentHashRing (Sum256 : String → List Nat) (ringSize : Int)
    (blockStoreAddrs : List String) : Option ConsistentHashRing :=
  match NewConsistentHashRing.hashAll Sum256 ringSize blockStoreAddrs with
  | none => none
  | some result =>
    let sortMap := NewConsistentHashRing.sortMap result
    let resultIntVal := (result.map fun n => n.Index).insertionSort (· ≤ ·)
    let finalResult := resultIntVal.map fun i =>
      ({ Addr := (sortMap.lookup i).getD "", Index := i } : Node)
    some { Nodes := finalResult, RingSize := ringSize }

/-! ## Metadata store -/

/-- The struct `FileMetaData` (declared outside the two source files; its
fields are the ones `UpdateFile` reads and the data model names). -/
structure FileMetaData where
  Filename : String
  Version : Int
  BlockHashList : List String
deriving DecidableEq

/-- The struct `MetaStore` of MetaStore.go. -/
structure MetaStore where
  FileMetaMap : AList fun _ : String => FileMetaData
  BlockStoreRing : ConsistentHashRing

/-- Reduction of an integer to the range of a 64-bit signed Go `int`. -/
def int64 (x : Int) : Int :=
  (x + 2 ^ 63) % 2 ^ 64 - 2 ^ 63

/-- Go addition on `int`: wraps around at 64 bits. -/
def addInt (a b : Int) : Int :=
  int64 (a + b)

/-- The three numbers the error of `UpdateFile` is formatted from: the
submitted version, the expected one and the latest on the server. -/
structure VersionConflict where
  yours : Int
  expected : Int
  latest : Int
deriving DecidableEq

/-- What a call of `UpdateFile` leaves behind: the store, the value written
through `latestVersion`, and the returned error (`none` is Go `nil`). -/
structure UpdateResult where
  store : MetaStore
  latestVersion : Int
  err : Option VersionConflict

/-- Reading `m.FileMetaMap[name].Version`, the zero value when absent. -/
def MetaStore.versionOf (m : MetaStore) (name : String) : Int :=
  match m.FileMetaMap.lookup name with
  | some fm => fm.Version
  | none => 0

/-- The method `UpdateFile`. -/
def MetaStore.UpdateFile (m : MetaStore) (fileMetaData : FileMetaData) : UpdateResult :=
  let oldFileMeta : FileMetaData :=
    match m.FileMetaMap.lookup fileMetaData.Filename with
    | some old => old
    | none => { Filename := "", Version := 0, BlockHashList := [] }
  if addInt oldFileMeta.Version 1 = fileMetaData.Version then
    let m1 : MetaStore :=
      { m with FileMetaMap := m.FileMetaMap.insert fileMetaData.Filename fileMetaData }
    { store := m1, latestVersion := m1.versionOf fileMetaData.Filename, err := none }
  else
    { store := m
      latestVersion := m.versionOf fileMetaData.Filename
      err := some
        { yours := fileMetaData.Version
          expected := addInt oldFileMeta.Version 1
          latest := oldFileMeta.Version } }

/-- The method `GetBlockStoreMap`, threading the map behind `blockStoreMap`.
Each iteration may panic in `HashMod` or in `FindHostingNode`. -/
def MetaStore.GetBlockStoreMap (m : MetaStore) :
    List String → (AList fun _ : String => List String) →
      Option (AList fun _ : String => List String)
  | [], blockStoreMap => some blockStoreMap
  | h :: rest, blockStoreMap =>
    match HashMod h m.BlockStoreRing.RingSize with
    | none => none
    | some currIndex =>
      match m.BlockStoreRing.FindHostingNode currIndex with
      | none => none
      | some nextNode =>
        MetaStore.GetBlockStoreMap m rest
          (blockStoreMap.insert nextNode.Addr
            ((blockStoreMap.lookup nextNode.Addr).getD [] ++ [h]))

/-- The function `NewMetaStore`. -/
def NewMetaStore (blockStoreRing : ConsistentHashRing) : MetaStore :=
  { FileMetaMap := ∅, BlockStoreRing := blockStoreRing }

/-! ## Membership changes -/

/-- The struct `MigrationInstruction` (declared outside the two source files;
its fields are the ones `MetaStore.AddNode` and `MetaStore.RemoveNode` fill). -/
structure MigrationInstruction where
  LowerIndex : Int
  UpperIndex : Int
  DestAddr : String
deriving DecidableEq

/-- The network as one membership call meets it.  `dial a` is the error of
`rpc.DialHTTP("tcp", a)` (`none` when the connection is made); `call a inst succ`
is the outcome of `conn.Call("BlockStore.MigrateBlocks", inst, succ)` on the
connection to `a`: the returned error and the boolean left behind `succ`;
`close a` is the error of `conn.Close()`. -/
structure Network where
  dial : String → Option String
  call : String → MigrationInstruction → Bool → Option String × Bool
  close : String → Option String

/-- What a call of `MetaStore.AddNode` or `MetaStore.RemoveNode` leaves
behind: the store, the boolean behind `succ`, and the returned error (`none`
is Go `nil`). -/
structure MembershipResult where
  store : MetaStore
  succ : Bool
  err : Option String

/-- The first part of `MetaStore.AddNode`, up to the instruction: the
successor node that is dialled and the instruction sent to it.  `currIndex + 1`
is Go addition on `int`. -/
def MetaStore.AddNode.prepare (Sum256 : String → List Nat) (m : MetaStore)
    (nodeAddr : String) : Option (Node × MigrationInstruction) :=
  match m.BlockStoreRing.ComputeNodeIndex Sum256 nodeAddr with
  | none => none
  | some currIndex =>
    match m.BlockStoreRing.PrecedingNode currIndex with
    | none => none
    | some preNode =>
      match m.BlockStoreRing.FindHostingNode (addInt currIndex 1) with
      | none => none
      | some successorNode =>
        some (successorNode,
          { LowerIndex := preNode.Index, UpperIndex := currIndex, DestAddr := nodeAddr })

/-- The method `MetaStore.AddNode`: dial the successor, call its migration
endpoint, and only then add the node to the ring. -/
def MetaStore.AddNode (Sum256 : String → List Nat) (net : Network) (m : MetaStore)
    (nodeAddr : String) (succ : Bool) : Option MembershipResult :=
  match MetaStore.AddNode.prepare Sum256 m nodeAddr with
  | none => none
  | some (successorNode, inst) =>
    match net.dial successorNode.Addr with
    | some e => some { store := m, succ := succ, err := some e }
    | none =>
      match net.call successorNode.Addr inst succ with
      | (some e, succ1) => some { store := m, succ := succ1, err := some e }
      | (none, succ1) =>
        match m.BlockStoreRing.AddNode Sum256 nodeAddr with
        | none => none
        | some ring =>
          some { store := { m with BlockStoreRing := ring }
                 succ := succ1
                 err := net.close successorNode.Addr }

/-- The first part of `MetaStore.RemoveNode`, up to the instruction: the
successor node (the destination) and the instruction sent to the leaving
node. -/
def MetaStore.RemoveNode.prepare (Sum256 : String → List Nat) (m : MetaStore)
    (nodeAddr : String) : Option (Node × MigrationInstruction) :=
  match m.BlockStoreRing.ComputeNodeIndex Sum256 nodeAddr with
  | none => none
  | some currIndex =>
    match m.BlockStoreRing.PrecedingNode currIndex with
    | none => none
    | some preNode =>
      match m.BlockStoreRing.FindHostingNode (addInt currIndex 1) with
      | none => none
      | some successorNode =>
        some (successorNode,
          { LowerIndex := preNode.Index
            UpperIndex := currIndex
            DestAddr := successorNode.Addr })

/-- The method `MetaStore.RemoveNode`: dial the leaving node itself, call its
migration endpoint, and only then remove the node from the ring. -/
def MetaStore.RemoveNode (Sum256 : String → List Nat) (net : Network) (m : MetaStore)
    (nodeAddr : String) (succ : Bool) : Option MembershipResult :=
  match MetaStore.RemoveNode.prepare Sum256 m nodeAddr with
  | none => none
  | some (_, inst) =>
    match net.dial nodeAddr with
    | some e => some { store := m, succ := succ, err := some e }
    | none =>
      match net.call nodeAddr inst succ with
      | (some e, succ1) => some { store := m, succ := succ1, err := some e }
      | (none, succ1) =>
        match m.BlockStoreRing.RemoveNode Sum256 nodeAddr with
        | none => none
        | some ring =>
          some { store := { m with BlockStoreRing := ring }
                 succ := succ1
                 err := net.close nodeAddr }

/-! ## Predicates and sample data used in the statements -/

/-- Nodes sorted ascending by `Index` (equal indices allowed). -/
abbrev Ascending (l : List Node) : Prop :=
  l.Pairwise fun a b => a.Index ≤ b.Index

/-- Nodes sorted strictly ascending by `Index`. -/
abbrev StrictAscending (l : List Node) : Prop :=
  l.Pairwise fun a b => a.Index < b.Index

/-- The circular interval `(l, u]` on the ring: `l < x ≤ u` when `l < u`, and
`x > l` or `x ≤ u` when the interval wraps around (`l ≥ u`). -/
def inCircular (l u x : Int) : Prop :=
  if l < u then l < x ∧ x ≤ u else l < x ∨ x ≤ u

instance (l u x : Int) : Decidable (inCircular l u x) := by
  unfold inCircular; exact inferInstance

/-- The three-node ring of the scenario: modulus 1000, positions 100, 400, 700. -/
def ring3 : ConsistentHashRing :=
  { RingSize := 1000
    Nodes := [⟨"n100", 100⟩, ⟨"n400", 400⟩, ⟨"n700", 700⟩] }

/-- A stand-in digest used only to instantiate the theorems at concrete
inputs: one byte per character of the address.  The theorems themselves hold
for every digest function. -/
def sampleDigest (s : String) : List Nat :=
  s.data.map fun c => c.toNat % 256

/-- A store without any file record, as `NewMetaStore` returns it, over the
three-node ring. -/
def emptyStore : MetaStore :=
  { FileMetaMap := ∅, BlockStoreRing := ring3 }

/-- A first version of the file "f". -/
def fileV1 : FileMetaData :=
  { Filename := "f", Version := 1, BlockHashList := ["0226"] }

/-- The store after `fileV1` was submitted to the empty store. -/
def storeV1 : MetaStore :=
  (emptyStore.UpdateFile fileV1).store

/-- A candidate for the file "f" that skips a version. -/
def fileV3 : FileMetaData :=
  { Filename := "f", Version := 3, BlockHashList := ["02ee"] }

/-- The address of the node that hosts a block key,
`FindHostingNode(ComputeBlockIndex(key)).Addr`; `none` when one of the two
calls panics. -/
def ConsistentHashRing.hostAddr (ms : ConsistentHashRing) (key : String) : Option String :=
  match ms.ComputeBlockIndex key with
  | none => none
  | some i =>
    match ms.FindHostingNode i with
    | none => none
    | some n => some n.Addr

/-- Three block keys, the first and the last equal: "0226" has point 550 and
"02ee" has point 750 on a ring of size 1000. -/
def sampleKeys : List String :=
  ["0226", "02ee", "0226"]

/-- A network on which every dial is refused. -/
def netDialFails : Network :=
  { dial := fun _ => some "connection refused"
    call := fun _ _ s => (none, s)
    close := fun _ => none }

/-- A network on which the migration call returns an error. -/
def netCallFails : Network :=
  { dial := fun _ => none
    call := fun _ _ s => (some "migration failed", s)
    close := fun _ => none }

/-- A network on which the migration call returns no error and leaves the
success flag false. -/
def netFlagFalse : Network :=
  { dial := fun _ => none
    call := fun _ _ _ => (none, false)
    close := fun _ => none }

/-- The scenario ring after the node "jr" (position 250 under the stand-in
digest) has joined. -/
def ring4 : ConsistentHashRing :=
  { RingSize := 1000
    Nodes := [⟨"n100", 100⟩, ⟨"jr", 250⟩, ⟨"n400", 400⟩, ⟨"n700", 700⟩] }

/-- A store without file records over `ring4`. -/
def storeRing4 : MetaStore :=
  { FileMetaMap := ∅, BlockStoreRing := ring4 }

/-- The unsigned big-endian integer value of a list of bytes: the first byte is
the most significant one. -/
def bigEndianValue : List Nat → Nat
  | [] => 0
  | b :: rest => b * 256 ^ rest.length + bigEndianValue rest

/-- The number a text of hexadecimal digits denotes in base 16. -/
def hexNumber (cs : List Char) : Nat :=
  cs.foldl (fun acc c => acc * 16 + (hexDigit c).getD 0) 0

/-- A ring that holds the single node "jr" at position 250. -/
def ring1 : ConsistentHashRing :=
  { RingSize := 1000, Nodes := [⟨"jr", 250⟩] }

/-- A ring without nodes. -/
def ring0 : ConsistentHashRing :=
  { RingSize := 1000, Nodes := [] }

/-- The store after a sequence of `UpdateFile` calls, made one after the
other. -/
def runUpdates (m : MetaStore) : List FileMetaData → MetaStore
  | [] => m
  | c :: rest => runUpdates (m.UpdateFile c).store rest

/-- The number of calls for the file `f`, in a sequence of `UpdateFile` calls
made one after the other from the store `m`, that returned no error. -/
def acceptedCount (f : String) : MetaStore → List FileMetaData → Nat
  | _, [] => 0
  | m, c :: rest =>
    (if c.Filename = f ∧ (m.UpdateFile c).err = none then 1 else 0) +
      acceptedCount f (m.UpdateFile c).store rest

/-- A sequence of four calls for the file "f": versions 1, 1, 3, 2. -/
def sampleCalls : List FileMetaData :=
  [fileV1, fileV1, fileV3, { Filename := "f", Version := 2, BlockHashList := [] }]

/-! ## Lemmas on the lookups -/

theorem scanHost_none (p : Int) (l : List Node) :
    FindHostingNode.scan p l = none ↔ ∀ m ∈ l, m.Index < p := by
  induction l with
  | nil => simp [FindHostingNode.scan]
  | cons n rest ih =>
    by_cases h : n.Index ≥ p
    · simp only [FindHostingNode.scan, h, if_true, List.mem_cons, forall_eq_or_imp]
      constructor
      · intro hc; cases hc
      · intro hc; omega
    · simp only [FindHostingNode.scan, h, if_false, List.mem_cons, forall_eq_or_imp, ih]
      constructor
      · intro hc; exact ⟨by omega, hc⟩
      · intro hc; exact hc.2

theorem scanHost_some (p : Int) (l : List Node) (n : Node) :
    FindHostingNode.scan p l = some n ↔
      ∃ front back, l = front ++ n :: back ∧ (∀ m ∈ front, m.Index < p) ∧ p ≤ n.Index := by
  induction l with
  | nil => simp [FindHostingNode.scan]
  | cons a rest ih =>
    by_cases h : a.Index ≥ p
    · simp only [FindHostingNode.scan, h, if_true, Option.some.injEq]
      constructor
      · intro hc; subst hc
        exact ⟨[], rest, rfl, by simp, h⟩
      · rintro ⟨front, back, hl, hf, _⟩
        cases front with
        | nil => simp at hl; exact hl.1
        | cons f fs =>
          simp at hl
          have := hf f (by simp)
          rw [← hl.1] at this; omega
    · simp only [FindHostingNode.scan, h, if_false, ih]
      constructor
      · rintro ⟨front, back, hl, hf, hn⟩
        refine ⟨a :: front, back, by simp [hl], ?_, hn⟩
        intro m hm
        rcases List.mem_cons.1 hm with rfl | hm
        · omega
        · exact hf m hm
      · rintro ⟨front, back, hl, hf, hn⟩
        cases front with
        | nil => simp at hl; rw [← hl.1] at hn; omega
        | cons f fs =>
          simp at hl
          exact ⟨fs, back, hl.2, fun m hm => hf m (by simp [hm]), hn⟩

theorem scanPre_none (p : Int) (pre : Node) (l : List Node) :
    PrecedingNode.scan p pre l = none ↔ ∀ m ∈ l, m.Index < p := by
  induction l generalizing pre with
  | nil => simp [PrecedingNode.scan]
  | cons n rest ih =>
    by_cases h : n.Index < p
    · simp only [PrecedingNode.scan, h, if_true, List.mem_cons, forall_eq_or_imp, ih, true_and]
    · simp only [PrecedingNode.scan, h, if_false, List.mem_cons, forall_eq_or_imp]
      constructor
      · intro hc; cases hc
      · intro hc; exact hc.1.elim

theorem scanPre_some (p : Int) (pre r : Node) (l : List Node) :
    PrecedingNode.scan p pre l = some r ↔
      ∃ front n back, l = front ++ n :: back ∧ (∀ m ∈ front, m.Index < p) ∧
        p ≤ n.Index ∧ r = front.getLast?.getD pre := by
  induction l generalizing pre with
  | nil => simp [PrecedingNode.scan]
  | cons a rest ih =>
    by_cases h : a.Index < p
    · simp only [PrecedingNode.scan, h, if_true, ih]
      constructor
      · rintro ⟨front, n, back, hl, hf, hn, hr⟩
        refine ⟨a :: front, n, back, by simp [hl], ?_, hn, ?_⟩
        · intro m hm
          rcases List.mem_cons.1 hm with rfl | hm
          · exact h
          · exact hf m hm
        · rw [hr]
          cases front with
          | nil => simp
          | cons f fs =>
            simp [List.getLast?_cons_cons, List.getLast?_eq_getLast _ (List.cons_ne_nil f fs)]
      · rintro ⟨front, n, back, hl, hf, hn, hr⟩
        cases front with
        | nil =>
          simp at hl; rw [← hl.1] at hn; omega
        | cons f fs =>
          simp at hl
          refine ⟨fs, n, back, hl.2, fun m hm => hf m (by simp [hm]), hn, ?_⟩
          rw [hr, hl.1]
          cases fs with
          | nil => simp
          | cons g gs =>
            simp [List.getLast?_cons_cons, List.getLast?_eq_getLast _ (List.cons_ne_nil g gs)]
    · simp only [PrecedingNode.scan, h, if_false, Option.some.injEq]
      constructor
      · intro hc
        exact ⟨[], a, rest, rfl, by simp, by omega, by simp [hc]⟩
      · rintro ⟨front, n, back, hl, hf, _, hr⟩
        cases front with
        | nil => simp at hr; exact hr.symm
        | cons f fs =>
          simp at hl
          have := hf f (by simp)
          rw [← hl.1] at this; omega

theorem findHostingNode_cases (ms : ConsistentHashRing) (p : Int)
    (hne : ms.Nodes ≠ []) (hs : Ascending ms.Nodes) :
    ((∃ m ∈ ms.Nodes, p ≤ m.Index) →
      ∃ front n back, ms.Nodes = front ++ n :: back ∧ (∀ m ∈ front, m.Index < p) ∧
        p ≤ n.Index ∧ ms.FindHostingNode p = some n ∧
        ∀ m ∈ ms.Nodes, p ≤ m.Index → n.Index ≤ m.Index) ∧
    ((∀ m ∈ ms.Nodes, m.Index < p) →
      ∃ n0 rest, ms.Nodes = n0 :: rest ∧ ms.FindHostingNode p = some n0 ∧
        ∀ m ∈ ms.Nodes, n0.Index ≤ m.Index) := by
  constructor
  · rintro ⟨m0, hm0, hp0⟩
    cases hsc : FindHostingNode.scan p ms.Nodes with
    | none =>
      have := (scanHost_none p ms.Nodes).1 hsc m0 hm0
      omega
    | some n =>
      obtain ⟨front, back, hl, hf, hn⟩ := (scanHost_some p ms.Nodes n).1 hsc
      refine ⟨front, n, back, hl, hf, hn, by simp [ConsistentHashRing.FindHostingNode, hsc], ?_⟩
      intro m hm hpm
      rw [hl] at hm hs
      rcases List.mem_append.1 hm with hm | hm
      · have := hf m hm; omega
      · rcases List.mem_cons.1 hm with rfl | hm
        · exact le_refl _
        · exact List.rel_of_pairwise_cons (List.pairwise_append.1 hs).2.1 hm
  · intro hall
    have hsc := (scanHost_none p ms.Nodes).2 hall
    cases hN : ms.Nodes with
    | nil => exact absurd hN hne
    | cons n0 rest =>
      refine ⟨n0, rest, rfl, ?_, ?_⟩
      · rw [hN] at hsc
        simp [ConsistentHashRing.FindHostingNode, hsc, hN]
      · intro m hm
        rw [hN] at hs
        rcases List.mem_cons.1 hm with rfl | hm
        · exact le_refl _
        · exact List.rel_of_pairwise_cons hs hm

theorem exists_init_last (l : List Node) (hne : l ≠ []) :
    ∃ init last, l = init ++ [last] ∧ l.getLast? = some last := by
  refine ⟨l.dropLast, l.getLast hne, (List.dropLast_append_getLast hne).symm, ?_⟩
  exact List.getLast?_eq_getLast l hne

theorem ascending_le_last (init : List Node) (last m : Node)
    (hs : Ascending (init ++ [last])) (hm : m ∈ init ++ [last]) :
    m.Index ≤ last.Index := by
  rcases List.mem_append.1 hm with hm | hm
  · exact (List.pairwise_append.1 hs).2.2 m hm last (by simp)
  · simp at hm; rw [hm]

theorem precedingNode_cases (ms : ConsistentHashRing) (p : Int)
    (hne : ms.Nodes ≠ []) (hs : Ascending ms.Nodes) :
    ((∃ m ∈ ms.Nodes, m.Index < p) →
      ∃ front n back, ms.Nodes = front ++ n :: back ∧ n.Index < p ∧
        (∀ m ∈ back, p ≤ m.Index) ∧ ms.PrecedingNode p = some n ∧
        ∀ m ∈ ms.Nodes, m.Index < p → m.Index ≤ n.Index) ∧
    ((∀ m ∈ ms.Nodes, p ≤ m.Index) →
      ∃ init last, ms.Nodes = init ++ [last] ∧ ms.PrecedingNode p = some last ∧
        ∀ m ∈ ms.Nodes, m.Index ≤ last.Index) := by
  obtain ⟨init, last, hil, hlast⟩ := exists_init_last ms.Nodes hne
  constructor
  · rintro ⟨m0, hm0, hp0⟩
    cases hsc : PrecedingNode.scan p last ms.Nodes with
    | none =>
      have hall := (scanPre_none p last ms.Nodes).1 hsc
      refine ⟨init, last, [], hil, hall last (by simp [hil]), by simp, ?_, ?_⟩
      · simp [ConsistentHashRing.PrecedingNode, hlast, hsc]
      · intro m hm _
        rw [hil] at hm hs
        exact ascending_le_last init last m hs hm
    | some r =>
      obtain ⟨front, n1, back1, hl, hf, hn1, hr⟩ := (scanPre_some p last r ms.Nodes).1 hsc
      have hback : ∀ m ∈ n1 :: back1, p ≤ m.Index := by
        intro m hm
        rw [hl] at hs
        rcases List.mem_cons.1 hm with rfl | hm
        · exact hn1
        · have := List.rel_of_pairwise_cons (List.pairwise_append.1 hs).2.1 hm
          omega
      have hfne : front ≠ [] := by
        intro hfe
        rw [hfe, List.nil_append] at hl
        have := hback m0 (by rw [← hl]; exact hm0)
        omega
      obtain ⟨f1, r1, hf1, hr1⟩ := exists_init_last front hfne
      have hrr : r = r1 := by rw [hr, hr1]; rfl
      subst hrr
      have hrlt : r.Index < p := hf r (by simp [hf1])
      refine ⟨f1, r, n1 :: back1, by rw [hl, hf1]; simp, hrlt, hback, ?_, ?_⟩
      · simp [ConsistentHashRing.PrecedingNode, hlast, hsc]
      · intro m hm hmp
        rw [hl] at hm
        rcases List.mem_append.1 hm with hm | hm
        · rw [hf1] at hm
          have hsf : Ascending (f1 ++ [r]) := by
            rw [hl, hf1] at hs
            exact (List.pairwise_append.1 hs).1
          exact ascending_le_last f1 r m hsf hm
        · have := hback m hm
          omega
  · intro hall
    refine ⟨init, last, hil, ?_, ?_⟩
    · cases hN : ms.Nodes with
      | nil => exact absurd hN hne
      | cons n0 rest =>
        have h0 : ¬ n0.Index < p := by
          have := hall n0 (by simp [hN])
          omega
        rw [hN] at hlast
        simp [ConsistentHashRing.PrecedingNode, hN, hlast, PrecedingNode.scan, h0]
    · intro m hm
      rw [hil] at hm hs
      exact ascending_le_last init last m hs hm

theorem strict_index_inj (l : List Node) (hs : StrictAscending l) (a b : Node)
    (ha : a ∈ l) (hb : b ∈ l) (hab : a.Index = b.Index) : a = b := by
  induction l with
  | nil => cases ha
  | cons c t ih =>
    have hc : ∀ m ∈ t, c.Index < m.Index := fun m hm => List.rel_of_pairwise_cons hs hm
    rcases List.mem_cons.1 ha with ha1 | ha1 <;> rcases List.mem_cons.1 hb with hb1 | hb1
    · rw [ha1, hb1]
    · have := hc _ hb1; rw [ha1] at hab; omega
    · have := hc _ ha1; rw [hb1] at hab; omega
    · exact ih (List.Pairwise.of_cons hs) ha1 hb1

theorem strict_ascending (l : List Node) (hs : StrictAscending l) : Ascending l :=
  List.Pairwise.imp (fun h => le_of_lt h) hs

/-- The node that owns point `x` in a list of nodes, stated on Indexes only. -/
theorem findHostingNode_mem (ms : ConsistentHashRing) (x : Int)
    (hne : ms.Nodes ≠ []) (hs : Ascending ms.Nodes) :
    ∃ h, ms.FindHostingNode x = some h ∧ h ∈ ms.Nodes ∧
      ((x ≤ h.Index ∧ ∀ m ∈ ms.Nodes, x ≤ m.Index → h.Index ≤ m.Index) ∨
       ((∀ m ∈ ms.Nodes, m.Index < x) ∧ ∀ m ∈ ms.Nodes, h.Index ≤ m.Index)) := by
  have hc := findHostingNode_cases ms x hne hs
  by_cases hex : ∃ m ∈ ms.Nodes, x ≤ m.Index
  · obtain ⟨front, n, back, hl, _, hn, hf, hmin⟩ := hc.1 hex
    exact ⟨n, hf, by simp [hl], Or.inl ⟨hn, hmin⟩⟩
  · have hall : ∀ m ∈ ms.Nodes, m.Index < x := by
      intro m hm
      by_contra hlt
      exact hex ⟨m, hm, by omega⟩
    obtain ⟨n0, rest, hl, hf, hmin⟩ := hc.2 hall
    exact ⟨n0, hf, by simp [hl], Or.inr ⟨hall, hmin⟩⟩

theorem findHostingNode_iff (ms : ConsistentHashRing) (x : Int) (h : Node)
    (hs : StrictAscending ms.Nodes) :
    ms.FindHostingNode x = some h ↔ h ∈ ms.Nodes ∧
      ((x ≤ h.Index ∧ ∀ m ∈ ms.Nodes, x ≤ m.Index → h.Index ≤ m.Index) ∨
       ((∀ m ∈ ms.Nodes, m.Index < x) ∧ ∀ m ∈ ms.Nodes, h.Index ≤ m.Index)) := by
  constructor
  · intro hf
    have hne : ms.Nodes ≠ [] := by
      intro he
      simp [ConsistentHashRing.FindHostingNode, he, FindHostingNode.scan] at hf
    obtain ⟨g, hg, hgm, hgp⟩ := findHostingNode_mem ms x hne (strict_ascending _ hs)
    rw [hf] at hg
    cases hg
    exact ⟨hgm, hgp⟩
  · rintro ⟨hm, hp⟩
    have hne : ms.Nodes ≠ [] := List.ne_nil_of_mem hm
    obtain ⟨g, hg, hgm, hgp⟩ := findHostingNode_mem ms x hne (strict_ascending _ hs)
    rw [hg]
    congr 1
    apply strict_index_inj ms.Nodes hs g h hgm hm
    rcases hp with ⟨h1, h2⟩ | ⟨h1, h2⟩ <;> rcases hgp with ⟨g1, g2⟩ | ⟨g1, g2⟩
    · have := h2 g hgm g1; have := g2 h hm h1; omega
    · have := g1 h hm; omega
    · have := h1 g hgm; omega
    · have := h2 g hgm; have := g2 h hm; omega

theorem precedingNode_mem (ms : ConsistentHashRing) (p : Int)
    (hne : ms.Nodes ≠ []) (hs : Ascending ms.Nodes) :
    ∃ r, ms.PrecedingNode p = some r ∧ r ∈ ms.Nodes ∧
      ((r.Index < p ∧ ∀ m ∈ ms.Nodes, m.Index < p → m.Index ≤ r.Index) ∨
       ((∀ m ∈ ms.Nodes, p ≤ m.Index) ∧ ∀ m ∈ ms.Nodes, m.Index ≤ r.Index)) := by
  have hc := precedingNode_cases ms p hne hs
  by_cases hex : ∃ m ∈ ms.Nodes, m.Index < p
  · obtain ⟨front, n, back, hl, hn, _, hf, hmax⟩ := hc.1 hex
    exact ⟨n, hf, by simp [hl], Or.inl ⟨hn, hmax⟩⟩
  · have hall : ∀ m ∈ ms.Nodes, p ≤ m.Index := by
      intro m hm
      by_contra hlt
      exact hex ⟨m, hm, by omega⟩
    obtain ⟨init, last, hl, hf, hmax⟩ := hc.2 hall
    exact ⟨last, hf, by simp [hl], Or.inr ⟨hall, hmax⟩⟩

theorem addScan_no_insert (new : Node) (t : List Node) (a last : Node)
    (hall : ∀ m ∈ a :: t, ¬ m.Index < new.Index)
    (hlast : (a :: t).getLast? = some last) :
    AddNode.scan new (a :: t) ++ [last] = a :: t := by
  induction t generalizing a with
  | nil =>
    simp at hlast
    simp [AddNode.scan, hlast]
  | cons b u ih =>
    have ha : ¬ a.Index < new.Index := hall a (by simp)
    rw [List.getLast?_cons_cons] at hlast
    have := ih b (fun m hm => hall m (List.mem_cons_of_mem _ hm)) hlast
    simp only [AddNode.scan, ha, false_and, if_false, List.cons_append, this]

theorem ascending_head_le (a : Node) (t : List Node) (hs : Ascending (a :: t)) :
    ∀ m ∈ a :: t, a.Index ≤ m.Index := by
  intro m hm
  rcases List.mem_cons.1 hm with rfl | hm
  · exact le_refl _
  · exact List.rel_of_pairwise_cons hs hm

theorem filter_lt_nil (p : Int) (l : List Node) (h : ∀ m ∈ l, p < m.Index) :
    l.filter (fun n => n.Index < p) = [] := by
  rw [List.filter_eq_nil_iff]
  intro m hm
  have := h m hm
  simp; omega

theorem filter_gt_self (p : Int) (l : List Node) (h : ∀ m ∈ l, p < m.Index) :
    l.filter (fun n => p < n.Index) = l := by
  rw [List.filter_eq_self]
  intro m hm
  simpa using h m hm

theorem addScan_insert (new : Node) (t : List Node) (a last : Node)
    (hs : Ascending (a :: t)) (ha : a.Index < new.Index)
    (hfree : ∀ m ∈ a :: t, m.Index ≠ new.Index)
    (hlast : (a :: t).getLast? = some last) :
    (if new.Index > last.Index then (AddNode.scan new (a :: t) ++ [last]) ++ [new]
      else AddNode.scan new (a :: t) ++ [last]) =
    a :: (t.filter (fun n => n.Index < new.Index) ++
      new :: t.filter (fun n => new.Index < n.Index)) := by
  induction t generalizing a with
  | nil =>
    simp at hlast
    subst hlast
    simp [AddNode.scan, ha]
  | cons b u ih =>
    rw [List.getLast?_cons_cons] at hlast
    have hsb : Ascending (b :: u) := List.Pairwise.of_cons hs
    by_cases hb : b.Index > new.Index
    · have hgt : ∀ m ∈ b :: u, new.Index < m.Index := by
        intro m hm
        have := ascending_head_le b u hsb m hm
        omega
      have hno := addScan_no_insert new u b last (fun m hm => by have := hgt m hm; omega) hlast
      have hl : ¬ new.Index > last.Index := by
        have := hgt last (List.mem_of_mem_getLast? hlast)
        omega
      rw [if_neg hl, filter_lt_nil _ _ hgt, filter_gt_self _ _ hgt]
      simp only [AddNode.scan, ha, hb, and_self, if_true, List.cons_append, hno, List.nil_append]
    · have hb1 : b.Index < new.Index := by
        have := hfree b (by simp)
        omega
      have hih := ih b hsb hb1 (fun m hm => hfree m (List.mem_cons_of_mem _ hm)) hlast
      have hnb : ¬ new.Index < b.Index := by omega
      have hR : (b :: u).filter (fun n => n.Index < new.Index) ++
          new :: (b :: u).filter (fun n => new.Index < n.Index) =
          b :: (u.filter (fun n => n.Index < new.Index) ++
            new :: u.filter (fun n => new.Index < n.Index)) := by
        simp [List.filter_cons, hb1, hnb]
      simp only [AddNode.scan, ha, hb, and_false, if_false, List.cons_append]
      rw [hR, ← hih]
      split <;> simp

theorem addNode_eq (Sum256 : String → List Nat) (ms : ConsistentHashRing)
    (addr : String) (p : Int) (hne : ms.Nodes ≠ []) (hs : Ascending ms.Nodes)
    (hp : ms.ComputeNodeIndex Sum256 addr = some p)
    (hfree : ∀ n ∈ ms.Nodes, n.Index ≠ p) :
    ms.AddNode Sum256 addr = some
      { ms with Nodes := ms.Nodes.filter (fun n => n.Index < p) ++
          ({ Addr := addr, Index := p } : Node) :: ms.Nodes.filter (fun n => p < n.Index) } := by
  unfold ConsistentHashRing.ComputeNodeIndex at hp
  unfold ConsistentHashRing.AddNode
  rw [hp]
  cases hN : ms.Nodes with
  | nil => exact absurd hN hne
  | cons a t =>
    rw [hN] at hs hfree
    obtain ⟨init, last, _, hlast⟩ := exists_init_last (a :: t) (by simp)
    simp only [List.head?_cons, hlast]
    congr 2
    by_cases ha : p < a.Index
    · have hgt : ∀ m ∈ a :: t, p < m.Index := by
        intro m hm
        have := ascending_head_le a t hs m hm
        omega
      have hno := addScan_no_insert ⟨addr, p⟩ t a last
        (fun m hm => by have := hgt m hm; simp; omega) hlast
      have hl : ¬ p > last.Index := by
        have := hgt last (List.mem_of_mem_getLast? hlast)
        omega
      rw [if_neg hl, if_pos ha, filter_lt_nil _ _ hgt, filter_gt_self _ _ hgt]
      simp [hno]
    · have ha1 : a.Index < p := by
        have := hfree a (by simp)
        omega
      have := addScan_insert ⟨addr, p⟩ t a last hs ha1 hfree hlast
      have hR : (a :: t).filter (fun n => n.Index < p) ++
          ({ Addr := addr, Index := p } : Node) :: (a :: t).filter (fun n => p < n.Index) =
          a :: (t.filter (fun n => n.Index < p) ++
            ({ Addr := addr, Index := p } : Node) :: t.filter (fun n => p < n.Index)) := by
        simp [List.filter_cons, ha1, ha]
      simp only [if_neg ha, List.nil_append]
      rw [hR]
      exact this

theorem filter_split (p : Int) (l : List Node) (hs : Ascending l)
    (hfree : ∀ m ∈ l, m.Index ≠ p) :
    l.filter (fun n => n.Index < p) ++ l.filter (fun n => p < n.Index) = l := by
  induction l with
  | nil => rfl
  | cons a t ih =>
    by_cases ha : a.Index < p
    · have hna : ¬ p < a.Index := by omega
      have := ih (List.Pairwise.of_cons hs) (fun m hm => hfree m (List.mem_cons_of_mem _ hm))
      simp [List.filter_cons, ha, hna, this]
    · have hgt : ∀ m ∈ a :: t, p < m.Index := by
        intro m hm
        have := ascending_head_le a t hs m hm
        have := hfree a (by simp)
        omega
      rw [filter_lt_nil _ _ hgt, filter_gt_self _ _ hgt]
      rfl

theorem filter_ne_self (p : Int) (l : List Node) (hfree : ∀ m ∈ l, m.Index ≠ p) :
    l.filter (fun n => n.Index ≠ p) = l := by
  rw [List.filter_eq_self]
  intro m hm
  simpa using hfree m hm

theorem inserted_strict (p : Int) (new : Node) (l : List Node) (hnew : new.Index = p)
    (hs : StrictAscending l) :
    StrictAscending (l.filter (fun n => n.Index < p) ++ new :: l.filter (fun n => p < n.Index)) := by
  unfold StrictAscending
  rw [List.pairwise_append]
  refine ⟨List.Pairwise.filter _ hs, ?_, ?_⟩
  · rw [List.pairwise_cons]
    refine ⟨?_, List.Pairwise.filter _ hs⟩
    intro m hm
    have := (List.mem_filter.1 hm).2
    simp at this
    omega
  · intro a ha b hb
    have h1 := (List.mem_filter.1 ha).2
    simp at h1
    rcases List.mem_cons.1 hb with rfl | hb
    · omega
    · have h2 := (List.mem_filter.1 hb).2
      simp at h2
      omega

theorem inserted_mem (p : Int) (new : Node) (l : List Node)
    (hfree : ∀ m ∈ l, m.Index ≠ p) (m : Node) :
    m ∈ l.filter (fun n => n.Index < p) ++ new :: l.filter (fun n => p < n.Index) ↔
      m = new ∨ m ∈ l := by
  simp only [List.mem_append, List.mem_cons, List.mem_filter, decide_eq_true_eq]
  constructor
  · rintro (⟨h, _⟩ | h | ⟨h, _⟩)
    · exact Or.inr h
    · exact Or.inl h
    · exact Or.inr h
  · rintro (h | h)
    · exact Or.inr (Or.inl h)
    · have := hfree m h
      by_cases hlt : m.Index < p
      · exact Or.inl ⟨h, hlt⟩
      · exact Or.inr (Or.inr ⟨h, by omega⟩)

/-- The position `HashMod` gives an address when the modulus is not 0. -/
theorem hashMod_some (s : String) (ringSize : Int) (h : ringSize ≠ 0) :
    HashMod s ringSize = some ((setBytes (hexDecode s.data) : Int) % ringSize) := by
  simp [HashMod, h]

theorem hashAll_eq (Sum256 : String → List Nat) (ringSize : Int) (h : ringSize ≠ 0)
    (addrs : List String) :
    NewConsistentHashRing.hashAll Sum256 ringSize addrs =
      some (addrs.map fun a =>
        ({ Addr := a
           Index := (setBytes (hexDecode (hexEncode (Sum256 a)).data) : Int) % ringSize } : Node)) := by
  induction addrs with
  | nil => rfl
  | cons a t ih =>
    simp [NewConsistentHashRing.hashAll, hashMod_some _ _ h, ih]

theorem sortMap_fold_other (l : List Node) (sm : AList fun _ : Int => String) (i : Int)
    (h : ∀ n ∈ l, n.Index ≠ i) :
    (l.foldl (fun sm n => sm.insert n.Index n.Addr) sm).lookup i = sm.lookup i := by
  induction l generalizing sm with
  | nil => rfl
  | cons a t ih =>
    rw [List.foldl_cons, ih _ (fun n hn => h n (List.mem_cons_of_mem _ hn))]
    exact AList.lookup_insert_ne (Ne.symm (h a (by simp)))

theorem sortMap_fold_mem (l : List Node) (sm : AList fun _ : Int => String)
    (hd : (l.map fun n => n.Index).Nodup) (n : Node) (hn : n ∈ l) :
    (l.foldl (fun sm n => sm.insert n.Index n.Addr) sm).lookup n.Index = some n.Addr := by
  induction l generalizing sm with
  | nil => cases hn
  | cons a t ih =>
    rw [List.map_cons, List.nodup_cons] at hd
    rw [List.foldl_cons]
    rcases List.mem_cons.1 hn with rfl | hn
    · rw [sortMap_fold_other]
      · exact AList.lookup_insert _
      · intro m hm heq
        exact hd.1 (List.mem_map.2 ⟨m, hm, heq⟩)
    · exact ih _ hd.2 hn

/-- Below the largest 64-bit value, Go addition of 1 is the integer one. -/
theorem addInt_one (v : Int) (h : -2 ^ 63 ≤ v ∧ v < 2 ^ 63 - 1) : addInt v 1 = v + 1 := by
  unfold addInt int64
  omega

theorem updateFile_accept (m : MetaStore) (c : FileMetaData)
    (h : c.Version = addInt (m.versionOf c.Filename) 1) :
    (m.UpdateFile c).err = none ∧
    (m.UpdateFile c).store.FileMetaMap = m.FileMetaMap.insert c.Filename c ∧
    (m.UpdateFile c).store.BlockStoreRing = m.BlockStoreRing ∧
    (m.UpdateFile c).latestVersion = c.Version := by
  unfold MetaStore.versionOf at h
  unfold MetaStore.UpdateFile
  cases hl : m.FileMetaMap.lookup c.Filename <;>
    simp only [hl] at h <;>
    simp [hl, h, MetaStore.versionOf]

theorem updateFile_reject (m : MetaStore) (c : FileMetaData)
    (h : c.Version ≠ addInt (m.versionOf c.Filename) 1) :
    (m.UpdateFile c).err = some
      { yours := c.Version
        expected := addInt (m.versionOf c.Filename) 1
        latest := m.versionOf c.Filename } ∧
    (m.UpdateFile c).store = m ∧
    (m.UpdateFile c).latestVersion = m.versionOf c.Filename := by
  unfold MetaStore.versionOf at h ⊢
  unfold MetaStore.UpdateFile
  cases hl : m.FileMetaMap.lookup c.Filename <;>
    simp only [hl] at h <;>
    simp [hl, Ne.symm h, MetaStore.versionOf]

theorem findHostingNode_some (ms : ConsistentHashRing) (x : Int) (hne : ms.Nodes ≠ []) :
    ∃ n, ms.FindHostingNode x = some n := by
  unfold ConsistentHashRing.FindHostingNode
  cases FindHostingNode.scan x ms.Nodes with
  | some n => exact ⟨n, rfl⟩
  | none =>
    cases hN : ms.Nodes with
    | nil => exact absurd hN hne
    | cons a t => exact ⟨a, rfl⟩

theorem hostAddr_iff (ms : ConsistentHashRing) (key a : String) :
    ms.hostAddr key = some a ↔
      ∃ i n, ms.ComputeBlockIndex key = some i ∧ ms.FindHostingNode i = some n ∧ n.Addr = a := by
  unfold ConsistentHashRing.hostAddr
  cases ms.ComputeBlockIndex key with
  | none => simp
  | some i =>
    cases hn : ms.FindHostingNode i with
    | none => simp [hn]
    | some n => simp [hn]

theorem hostAddr_some (ms : ConsistentHashRing) (key : String)
    (hne : ms.Nodes ≠ []) (hR : ms.RingSize ≠ 0) : ∃ a, ms.hostAddr key = some a := by
  obtain ⟨n, hn⟩ := findHostingNode_some ms
    ((setBytes (hexDecode key.data) : Int) % ms.RingSize) hne
  exact ⟨n.Addr, by
    simp [ConsistentHashRing.hostAddr, ConsistentHashRing.ComputeBlockIndex, HashMod, hR, hn]⟩

theorem getBlockStoreMap_cons (m : MetaStore) (k a : String) (rest : List String)
    (bsm : AList fun _ : String => List String)
    (h : m.BlockStoreRing.hostAddr k = some a) :
    m.GetBlockStoreMap (k :: rest) bsm =
      m.GetBlockStoreMap rest (bsm.insert a ((bsm.lookup a).getD [] ++ [k])) := by
  obtain ⟨i, n, hi, hn, hna⟩ := (hostAddr_iff _ _ _).1 h
  unfold ConsistentHashRing.ComputeBlockIndex at hi
  subst hna
  rw [MetaStore.GetBlockStoreMap]
  simp only [hi, hn]

theorem buckets_lookup_perm (l : List (Sigma fun _ : String => List String)) (a : String)
    (v : List String) (h : List.dlookup a l = some v) :
    (l.flatMap fun e => e.2).Perm (v ++ (List.kerase a l).flatMap fun e => e.2) := by
  induction l with
  | nil => simp at h
  | cons s t ih =>
    by_cases hs : a = s.1
    · subst hs
      obtain ⟨s1, s2⟩ := s
      rw [List.dlookup_cons_eq] at h
      cases h
      rw [List.kerase_cons_eq rfl]
      simp
    · rw [List.dlookup_cons_ne _ _ hs] at h
      rw [List.kerase_cons_ne hs]
      simp only [List.flatMap_cons]
      refine (List.Perm.append_left _ (ih h)).trans ?_
      rw [← List.append_assoc, ← List.append_assoc]
      exact List.Perm.append_right _ List.perm_append_comm

theorem buckets_insert_perm (bsm : AList fun _ : String => List String) (a k : String) :
    ((bsm.insert a ((bsm.lookup a).getD [] ++ [k])).entries.flatMap fun e => e.2).Perm
      ((bsm.entries.flatMap fun e => e.2) ++ [k]) := by
  rw [AList.insert_entries]
  simp only [List.flatMap_cons]
  cases hl : bsm.lookup a with
  | none =>
    have hnot : a ∉ bsm.entries.keys := by
      have := AList.lookup_eq_none.1 hl
      exact this
    rw [List.kerase_of_not_mem_keys hnot]
    simp only [Option.getD_none, List.nil_append]
    exact List.perm_append_comm
  | some v =>
    have hp := buckets_lookup_perm bsm.entries a v hl
    simp only [Option.getD_some]
    refine List.Perm.trans ?_ (List.Perm.append_right [k] hp.symm)
    rw [List.append_assoc, List.append_assoc]
    exact List.Perm.append_left _ List.perm_append_comm

theorem getBlockStoreMap_inv (m : MetaStore) (hne : m.BlockStoreRing.Nodes ≠ [])
    (hR : m.BlockStoreRing.RingSize ≠ 0) (keys : List String)
    (bsm0 : AList fun _ : String => List String) :
    ∃ bsm, m.GetBlockStoreMap keys bsm0 = some bsm ∧
      (bsm.entries.flatMap fun e => e.2).Perm ((bsm0.entries.flatMap fun e => e.2) ++ keys) ∧
      ∀ a, (bsm.lookup a).getD [] = (bsm0.lookup a).getD [] ++
          keys.filter (fun k => m.BlockStoreRing.hostAddr k = some a) ∧
        (bsm.lookup a = none ↔ bsm0.lookup a = none ∧
          keys.filter (fun k => m.BlockStoreRing.hostAddr k = some a) = []) := by
  induction keys generalizing bsm0 with
  | nil =>
    exact ⟨bsm0, rfl, by simp, fun a => by simp⟩
  | cons k rest ih =>
    obtain ⟨b, hb⟩ := hostAddr_some m.BlockStoreRing k hne hR
    obtain ⟨bsm, hrun, hperm, hlook⟩ := ih (bsm0.insert b ((bsm0.lookup b).getD [] ++ [k]))
    refine ⟨bsm, by rw [getBlockStoreMap_cons m k b rest bsm0 hb]; exact hrun, ?_, ?_⟩
    · refine hperm.trans ?_
      refine (List.Perm.append_right rest (buckets_insert_perm bsm0 b k)).trans ?_
      simp
    · intro a
      obtain ⟨h1, h2⟩ := hlook a
      by_cases hab : a = b
      · subst hab
        rw [AList.lookup_insert] at h1 h2
        constructor
        · rw [h1]
          simp [List.filter_cons, hb]
        · rw [h2]
          simp [List.filter_cons, hb]
      · have hkb : ¬ m.BlockStoreRing.hostAddr k = some a := by
          rw [hb]
          intro hc
          exact hab (Option.some.inj hc).symm
        rw [AList.lookup_insert_ne hab] at h1 h2
        constructor
        · rw [h1]
          simp [List.filter_cons, hkb]
        · rw [h2]
          simp [List.filter_cons, hkb]

theorem precedingNode_some (ms : ConsistentHashRing) (p : Int) (hne : ms.Nodes ≠ []) :
    ∃ n, ms.PrecedingNode p = some n := by
  obtain ⟨init, last, _, hlast⟩ := exists_init_last ms.Nodes hne
  unfold ConsistentHashRing.PrecedingNode
  rw [hlast]
  cases hsc : PrecedingNode.scan p last ms.Nodes with
  | some n => exact ⟨n, by simp only [hsc]⟩
  | none => exact ⟨last, by simp only [hsc]⟩

theorem ring_addNode_some (Sum256 : String → List Nat) (ms : ConsistentHashRing)
    (addr : String) (hne : ms.Nodes ≠ []) (hR : ms.RingSize ≠ 0) :
    ∃ ms1, ms.AddNode Sum256 addr = some ms1 := by
  obtain ⟨init, last, _, hlast⟩ := exists_init_last ms.Nodes hne
  cases hN : ms.Nodes with
  | nil => exact absurd hN hne
  | cons a t =>
    rw [hN] at hlast
    simp only [ConsistentHashRing.AddNode, hashMod_some _ _ hR, hN, List.head?_cons, hlast]
    exact ⟨_, rfl⟩

theorem ring_removeNode_some (Sum256 : String → List Nat) (ms : ConsistentHashRing)
    (addr : String) (hR : ms.RingSize ≠ 0) :
    ∃ ms1, ms.RemoveNode Sum256 addr = some ms1 := by
  simp only [ConsistentHashRing.RemoveNode, hashMod_some _ _ hR]
  exact ⟨_, rfl⟩

theorem addNode_prepare_some (Sum256 : String → List Nat) (m : MetaStore) (addr : String)
    (hne : m.BlockStoreRing.Nodes ≠ []) (hR : m.BlockStoreRing.RingSize ≠ 0) :
    ∃ target inst, MetaStore.AddNode.prepare Sum256 m addr = some (target, inst) := by
  unfold MetaStore.AddNode.prepare ConsistentHashRing.ComputeNodeIndex
  rw [hashMod_some _ _ hR]
  obtain ⟨pre, hpre⟩ := precedingNode_some m.BlockStoreRing
    ((setBytes (hexDecode (hexEncode (Sum256 addr)).data) : Int) % m.BlockStoreRing.RingSize) hne
  obtain ⟨s, hs⟩ := findHostingNode_some m.BlockStoreRing
    (addInt ((setBytes (hexDecode (hexEncode (Sum256 addr)).data) : Int) %
      m.BlockStoreRing.RingSize) 1) hne
  simp only [hpre, hs]
  exact ⟨_, _, rfl⟩

theorem removeNode_prepare_some (Sum256 : String → List Nat) (m : MetaStore) (addr : String)
    (hne : m.BlockStoreRing.Nodes ≠ []) (hR : m.BlockStoreRing.RingSize ≠ 0) :
    ∃ target inst, MetaStore.RemoveNode.prepare Sum256 m addr = some (target, inst) := by
  unfold MetaStore.RemoveNode.prepare ConsistentHashRing.ComputeNodeIndex
  rw [hashMod_some _ _ hR]
  obtain ⟨pre, hpre⟩ := precedingNode_some m.BlockStoreRing
    ((setBytes (hexDecode (hexEncode (Sum256 addr)).data) : Int) % m.BlockStoreRing.RingSize) hne
  obtain ⟨s, hs⟩ := findHostingNode_some m.BlockStoreRing
    (addInt ((setBytes (hexDecode (hexEncode (Sum256 addr)).data) : Int) %
      m.BlockStoreRing.RingSize) 1) hne
  simp only [hpre, hs]
  exact ⟨_, _, rfl⟩

/-- The three ways a call of `MetaStore.AddNode` ends once the instruction
is prepared. -/
theorem metaAddNode_outcome (Sum256 : String → List Nat) (net : Network) (m : MetaStore)
    (addr : String) (succ : Bool) (target : Node) (inst : MigrationInstruction)
    (hprep : MetaStore.AddNode.prepare Sum256 m addr = some (target, inst)) :
    (∀ e, net.dial target.Addr = some e →
      m.AddNode Sum256 net addr succ = some { store := m, succ := succ, err := some e }) ∧
    (∀ e, net.dial target.Addr = none → (net.call target.Addr inst succ).1 = some e →
      m.AddNode Sum256 net addr succ =
        some { store := m, succ := (net.call target.Addr inst succ).2, err := some e }) ∧
    (∀ ring, net.dial target.Addr = none → (net.call target.Addr inst succ).1 = none →
      m.BlockStoreRing.AddNode Sum256 addr = some ring →
      m.AddNode Sum256 net addr succ =
        some { store := { m with BlockStoreRing := ring }
               succ := (net.call target.Addr inst succ).2
               err := net.close target.Addr }) := by
  refine ⟨?_, ?_, ?_⟩
  · intro e hd
    simp only [MetaStore.AddNode, hprep, hd]
  · intro e hd hc
    cases hcall : net.call target.Addr inst succ with
    | mk e1 s1 =>
      rw [hcall] at hc
      simp only at hc
      subst hc
      simp only [MetaStore.AddNode, hprep, hd, hcall]
  · intro ring hd hc hring
    cases hcall : net.call target.Addr inst succ with
    | mk e1 s1 =>
      rw [hcall] at hc
      simp only at hc
      subst hc
      simp only [MetaStore.AddNode, hprep, hd, hcall, hring]

/-- The three ways a call of `MetaStore.RemoveNode` ends once the instruction
is prepared. -/
theorem metaRemoveNode_outcome (Sum256 : String → List Nat) (net : Network) (m : MetaStore)
    (addr : String) (succ : Bool) (target : Node) (inst : MigrationInstruction)
    (hprep : MetaStore.RemoveNode.prepare Sum256 m addr = some (target, inst)) :
    (∀ e, net.dial addr = some e →
      m.RemoveNode Sum256 net addr succ = some { store := m, succ := succ, err := some e }) ∧
    (∀ e, net.dial addr = none → (net.call addr inst succ).1 = some e →
      m.RemoveNode Sum256 net addr succ =
        some { store := m, succ := (net.call addr inst succ).2, err := some e }) ∧
    (∀ ring, net.dial addr = none → (net.call addr inst succ).1 = none →
      m.BlockStoreRing.RemoveNode Sum256 addr = some ring →
      m.RemoveNode Sum256 net addr succ =
        some { store := { m with BlockStoreRing := ring }
               succ := (net.call addr inst succ).2
               err := net.close addr }) := by
  refine ⟨?_, ?_, ?_⟩
  · intro e hd
    simp only [MetaStore.RemoveNode, hprep, hd]
  · intro e hd hc
    cases hcall : net.call addr inst succ with
    | mk e1 s1 =>
      rw [hcall] at hc
      simp only at hc
      subst hc
      simp only [MetaStore.RemoveNode, hprep, hd, hcall]
  · intro ring hd hc hring
    cases hcall : net.call addr inst succ with
    | mk e1 s1 =>
      rw [hcall] at hc
      simp only at hc
      subst hc
      simp only [MetaStore.RemoveNode, hprep, hd, hcall, hring]

theorem foldl_bytes (bs : List Nat) (acc : Nat) :
    bs.foldl (fun acc b => acc * 256 + b) acc = acc * 256 ^ bs.length + bigEndianValue bs := by
  induction bs generalizing acc with
  | nil => simp [bigEndianValue]
  | cons b rest ih =>
    rw [List.foldl_cons, ih, bigEndianValue, List.length_cons, pow_succ]
    ring

theorem setBytes_eq_bigEndian (bs : List Nat) : setBytes bs = bigEndianValue bs := by
  unfold setBytes
  rw [foldl_bytes]
  simp

theorem hexDecode_valid (n : Nat) : ∀ (cs : List Char) (acc : Nat), cs.length = 2 * n →
    (∀ c ∈ cs, (hexDigit c).isSome) →
    (hexDecode cs).length = n ∧
    (hexDecode cs).foldl (fun acc b => acc * 256 + b) acc =
      cs.foldl (fun acc c => acc * 16 + (hexDigit c).getD 0) acc := by
  induction n with
  | zero =>
    intro cs acc hlen _
    have : cs = [] := List.length_eq_zero.1 (by omega)
    subst this
    simp [hexDecode]
  | succ k ih =>
    intro cs acc hlen hhex
    match cs, hlen, hhex with
    | p :: q :: rest, hlen, hhex =>
      have hp := hhex p (by simp)
      have hq := hhex q (by simp)
      obtain ⟨a, ha⟩ := Option.isSome_iff_exists.1 hp
      obtain ⟨b, hb⟩ := Option.isSome_iff_exists.1 hq
      have hrest := ih rest (acc * 256 + (a * 16 + b)) (by simp at hlen; omega)
        (fun c hc => hhex c (by simp [hc]))
      simp only [hexDecode, ha, hb, List.length_cons, List.foldl_cons, Option.getD_some]
      refine ⟨by omega, ?_⟩
      rw [hrest.2]
      congr 1
      ring
    | [_], hlen, _ => simp at hlen; omega
    | [], hlen, _ => simp at hlen

theorem ring_addNode_empty (Sum256 : String → List Nat) (ms : ConsistentHashRing)
    (addr : String) (hempty : ms.Nodes = []) : ms.AddNode Sum256 addr = none := by
  unfold ConsistentHashRing.AddNode
  cases HashMod (hexEncode (Sum256 addr)) ms.RingSize with
  | none => rfl
  | some p => simp [hempty]

theorem scanHost_congr (x y : Int) (l : List Node)
    (h : ∀ m ∈ l, x ≤ m.Index ↔ y ≤ m.Index) :
    FindHostingNode.scan x l = FindHostingNode.scan y l := by
  induction l with
  | nil => rfl
  | cons a t ih =>
    have ha := h a (by simp)
    have ht := ih (fun m hm => h m (List.mem_cons_of_mem _ hm))
    by_cases hx : x ≤ a.Index
    · have hy := ha.1 hx
      simp [FindHostingNode.scan, hx, hy]
    · have hy : ¬ y ≤ a.Index := fun hc => hx (ha.2 hc)
      simp only [FindHostingNode.scan, ge_iff_le, hx, hy, if_false, ht]

theorem findHost_congr (ms : ConsistentHashRing) (x y : Int)
    (h : ∀ m ∈ ms.Nodes, x ≤ m.Index ↔ y ≤ m.Index) :
    ms.FindHostingNode x = ms.FindHostingNode y := by
  unfold ConsistentHashRing.FindHostingNode
  rw [scanHost_congr x y ms.Nodes h]

theorem findHost_wrap (ms : ConsistentHashRing) (x : Int)
    (h : ∀ m ∈ ms.Nodes, m.Index < x) : ms.FindHostingNode x = ms.Nodes.head? := by
  unfold ConsistentHashRing.FindHostingNode
  rw [(scanHost_none x ms.Nodes).2 h]

theorem findHost_all_ge (ms : ConsistentHashRing) (y : Int)
    (h : ∀ m ∈ ms.Nodes, y ≤ m.Index) : ms.FindHostingNode y = ms.Nodes.head? := by
  unfold ConsistentHashRing.FindHostingNode
  cases hN : ms.Nodes with
  | nil => rfl
  | cons a t =>
    have ha : a.Index ≥ y := h a (by simp [hN])
    simp [FindHostingNode.scan, ha]

theorem hashMod_nonneg (s : String) (ringSize p : Int) (h : HashMod s ringSize = some p) :
    ringSize ≠ 0 ∧ 0 ≤ p := by
  unfold HashMod at h
  by_cases hR : ringSize = 0
  · simp [hR] at h
  · simp only [hR, if_false, Option.some.injEq] at h
    exact ⟨hR, by rw [← h]; exact Int.emod_nonneg _ hR⟩

theorem successor_cases (ms : ConsistentHashRing) (p : Int)
    (hne : ms.Nodes ≠ []) (hs : Ascending ms.Nodes)
    (hfree : ∀ n ∈ ms.Nodes, n.Index ≠ p) :
    ∃ pre succ, ms.PrecedingNode p = some pre ∧ ms.FindHostingNode (p + 1) = some succ ∧
      ms.FindHostingNode p = some succ ∧
      ∀ x, inCircular pre.Index p x → ms.FindHostingNode x = some succ := by
  obtain ⟨pre, hpre, hprem, hprec⟩ := precedingNode_mem ms p hne hs
  obtain ⟨succ, hsucc⟩ := findHostingNode_some ms p hne
  refine ⟨pre, succ, hpre, ?_, hsucc, ?_⟩
  · rw [← hsucc]
    apply findHost_congr
    intro m hm
    have := hfree m hm
    omega
  · intro x hin
    rw [← hsucc]
    unfold inCircular at hin
    rcases hprec with ⟨r1, r2⟩ | ⟨r1, r2⟩
    · rw [if_pos r1] at hin
      apply findHost_congr
      intro m hm
      constructor
      · intro hxm
        by_contra hc
        have := r2 m hm (by omega)
        omega
      · intro hpm
        omega
    · have hnl : ¬ pre.Index < p := by have := r1 pre hprem; omega
      rw [if_neg hnl] at hin
      by_cases hxp : x ≤ p
      · apply findHost_congr
        intro m hm
        have := r1 m hm
        constructor <;> intro _ <;> omega
      · have hlx : pre.Index < x := by
          rcases hin with h1 | h1
          · exact h1
          · exact absurd h1 hxp
        rw [findHost_wrap ms x (fun m hm => by have := r2 m hm; omega),
          findHost_all_ge ms p r1]

theorem strict_two_other (l : List Node) (p : Int) (hs : StrictAscending l)
    (hlen : 2 ≤ l.length) : ∃ m ∈ l, m.Index ≠ p := by
  match l, hs, hlen with
  | a :: b :: t, hs, _ =>
    have hab : a.Index < b.Index := List.rel_of_pairwise_cons hs (by simp)
    by_cases ha : a.Index = p
    · exact ⟨b, by simp, by omega⟩
    · exact ⟨a, by simp, ha⟩
  | [_], _, hlen => simp at hlen
  | [], _, hlen => simp at hlen

theorem removed_mem (p : Int) (l : List Node) (m : Node) :
    m ∈ l.filter (fun n => n.Index ≠ p) ↔ m ∈ l ∧ m.Index ≠ p := by
  simp [List.mem_filter]

theorem addScan_collide (new : Node) (t : List Node) (a last : Node)
    (hs : Ascending (a :: t)) (hcol : ∃ m ∈ a :: t, m.Index = new.Index)
    (hlast : (a :: t).getLast? = some last) :
    AddNode.scan new (a :: t) ++ [last] = a :: t := by
  induction t generalizing a with
  | nil =>
    simp at hlast
    simp [AddNode.scan, hlast]
  | cons b u ih =>
    have hsb : Ascending (b :: u) := List.Pairwise.of_cons hs
    have hlast1 : (b :: u).getLast? = some last := by
      rw [List.getLast?_cons_cons] at hlast
      exact hlast
    obtain ⟨m, hm, hmp⟩ := hcol
    have hcond : ¬ (a.Index < new.Index ∧ b.Index > new.Index) := by
      rintro ⟨h1, h2⟩
      rcases List.mem_cons.1 hm with rfl | hm
      · omega
      · have := ascending_head_le b u hsb m hm
        omega
    have htail : AddNode.scan new (b :: u) ++ [last] = b :: u := by
      rcases List.mem_cons.1 hm with rfl | hm
      · apply addScan_no_insert new u b last _ hlast1
        intro k hk
        have := ascending_head_le m (b :: u) hs k (List.mem_cons_of_mem _ hk)
        omega
      · exact ih b hsb ⟨m, hm, hmp⟩ hlast1
    simp only [AddNode.scan, hcond, if_false, List.cons_append, htail]

theorem addNode_collide (Sum256 : String → List Nat) (ms : ConsistentHashRing)
    (addr : String) (p : Int) (hs : Ascending ms.Nodes)
    (hp : ms.ComputeNodeIndex Sum256 addr = some p)
    (hcol : ∃ n ∈ ms.Nodes, n.Index = p) :
    ms.AddNode Sum256 addr = some ms := by
  unfold ConsistentHashRing.ComputeNodeIndex at hp
  unfold ConsistentHashRing.AddNode
  rw [hp]
  obtain ⟨n, hn, hnp⟩ := hcol
  cases hN : ms.Nodes with
  | nil => rw [hN] at hn; cases hn
  | cons a t =>
    rw [hN] at hs hn
    obtain ⟨init, last, hil, hlast⟩ := exists_init_last (a :: t) (by simp)
    have hfirst : ¬ p < a.Index := by
      have := ascending_head_le a t hs n hn
      omega
    have hl : ¬ p > last.Index := by
      rw [hil] at hs hn
      have := ascending_le_last init last n hs hn
      omega
    have hscan := addScan_collide ⟨addr, p⟩ t a last hs ⟨n, hn, hnp⟩ hlast
    simp only [List.head?_cons, hlast, if_neg hfirst, if_neg hl, List.nil_append, hscan]
    rw [← hN]

theorem int64_succ (k : Int) : addInt (int64 k) 1 = int64 (k + 1) := by
  unfold addInt int64
  omega

theorem int64_small (k : Int) (h : 0 ≤ k ∧ k < 2 ^ 63) : int64 k = k := by
  unfold int64
  omega

theorem versionOf_insert_ne (m : MetaStore) (c : FileMetaData) (f : String)
    (h : c.Filename ≠ f) (ring : ConsistentHashRing) :
    MetaStore.versionOf
      { FileMetaMap := m.FileMetaMap.insert c.Filename c, BlockStoreRing := ring } f =
      m.versionOf f := by
  unfold MetaStore.versionOf
  simp only [AList.lookup_insert_ne (Ne.symm h)]

/-- One `UpdateFile` call seen from a file `f`. -/
theorem updateFile_step (m : MetaStore) (c : FileMetaData) (f : String) :
    ((m.UpdateFile c).err = none ∧ c.Filename = f ∧
      (m.UpdateFile c).store.versionOf f = addInt (m.versionOf f) 1 ∧
      (m.UpdateFile c).store.FileMetaMap.lookup f ≠ none) ∨
    (¬ (c.Filename = f ∧ (m.UpdateFile c).err = none) ∧
      (m.UpdateFile c).store.versionOf f = m.versionOf f ∧
      (m.UpdateFile c).store.FileMetaMap.lookup f = m.FileMetaMap.lookup f) := by
  by_cases h : c.Version = addInt (m.versionOf c.Filename) 1
  · obtain ⟨herr, hmap, hring, _⟩ := updateFile_accept m c h
    by_cases hf : c.Filename = f
    · left
      refine ⟨herr, hf, ?_, ?_⟩
      · subst hf
        unfold MetaStore.versionOf
        rw [hmap, AList.lookup_insert]
        exact h
      · subst hf
        rw [hmap, AList.lookup_insert]
        simp
    · right
      refine ⟨fun hc => hf hc.1, ?_, ?_⟩
      · unfold MetaStore.versionOf
        rw [hmap, AList.lookup_insert_ne (Ne.symm hf)]
      · rw [hmap, AList.lookup_insert_ne (Ne.symm hf)]
  · obtain ⟨herr, hstore, _⟩ := updateFile_reject m c h
    right
    refine ⟨?_, by rw [hstore], by rw [hstore]⟩
    intro hc
    rw [herr] at hc
    cases hc.2

theorem count_invariant (f : String) (calls : List FileMetaData) :
    ∀ (m : MetaStore) (k : Nat), m.versionOf f = int64 k →
      (m.FileMetaMap.lookup f = none ↔ k = 0) →
      (runUpdates m calls).versionOf f = int64 ((k + acceptedCount f m calls : Nat) : Int) ∧
      ((runUpdates m calls).FileMetaMap.lookup f = none ↔ k + acceptedCount f m calls = 0) := by
  induction calls with
  | nil =>
    intro m k hv hl
    exact ⟨by simpa [runUpdates, acceptedCount] using hv, by simpa [runUpdates, acceptedCount] using hl⟩
  | cons c rest ih =>
    intro m k hv hl
    rcases updateFile_step m c f with ⟨herr, hf, hver, hlook⟩ | ⟨hno, hver, hlook⟩
    · have hv1 : (m.UpdateFile c).store.versionOf f = int64 ((k + 1 : Nat) : Int) := by
        rw [hver, hv, int64_succ]
        norm_cast
      have hl1 : (m.UpdateFile c).store.FileMetaMap.lookup f = none ↔ k + 1 = 0 := by
        constructor
        · intro hc; exact absurd hc hlook
        · intro hc; omega
      have := ih (m.UpdateFile c).store (k + 1) hv1 hl1
      simp only [runUpdates, acceptedCount, hf, herr, and_self, if_true]
      have e : k + (1 + acceptedCount f (m.UpdateFile c).store rest) =
          k + 1 + acceptedCount f (m.UpdateFile c).store rest := by omega
      rw [e]
      exact this
    · have hv1 : (m.UpdateFile c).store.versionOf f = int64 (k : Int) := by rw [hver, hv]
      have hl1 : (m.UpdateFile c).store.FileMetaMap.lookup f = none ↔ k = 0 := by
        rw [hlook]; exact hl
      have := ih (m.UpdateFile c).store k hv1 hl1
      simp only [runUpdates, acceptedCount, hno, if_false, Nat.zero_add]
      exact this

theorem acceptedCount_le (f : String) (calls : List FileMetaData) :
    ∀ m : MetaStore, acceptedCount f m calls ≤ calls.length := by
  induction calls with
  | nil => intro m; simp [acceptedCount]
  | cons c rest ih =>
    intro m
    have := ih (m.UpdateFile c).store
    simp only [acceptedCount, List.length_cons]
    split <;> omega

theorem runUpdates_append (calls more : List FileMetaData) :
    ∀ m : MetaStore, runUpdates m (calls ++ more) = runUpdates (runUpdates m calls) more := by
  induction calls with
  | nil => intro m; rfl
  | cons c rest ih =>
    intro m
    show runUpdates (m.UpdateFile c).store (rest ++ more) = _
    exact ih _

theorem acceptedCount_append (f : String) (calls more : List FileMetaData) :
    ∀ m : MetaStore, acceptedCount f m (calls ++ more) =
      acceptedCount f m calls + acceptedCount f (runUpdates m calls) more := by
  induction calls with
  | nil => intro m; simp [acceptedCount, runUpdates]
  | cons c rest ih =>
    intro m
    show (if c.Filename = f ∧ (m.UpdateFile c).err = none then 1 else 0) +
        acceptedCount f (m.UpdateFile c).store (rest ++ more) =
      (if c.Filename = f ∧ (m.UpdateFile c).err = none then 1 else 0) +
        acceptedCount f (m.UpdateFile c).store rest +
        acceptedCount f (runUpdates (m.UpdateFile c).store rest) more
    rw [ih]
    omega

theorem sortMap_fold_last (l : List Node) (sm : AList fun _ : Int => String) (i : Int)
    (n : Node) (h : (l.filter fun k => k.Index = i).getLast? = some n) :
    (l.foldl (fun sm n => sm.insert n.Index n.Addr) sm).lookup i = some n.Addr := by
  induction l using List.reverseRecOn with
  | nil => simp at h
  | append_singleton l1 a ih =>
    rw [List.foldl_append, List.foldl_cons, List.foldl_nil]
    by_cases ha : a.Index = i
    · have hf : (l1 ++ [a]).filter (fun k => k.Index = i) =
          l1.filter (fun k => k.Index = i) ++ [a] := by
        simp [List.filter_append, List.filter_cons, ha]
      rw [hf, List.getLast?_append] at h
      simp at h
      subst h
      rw [← ha]
      exact AList.lookup_insert _
    · have hf : (l1 ++ [a]).filter (fun k => k.Index = i) =
          l1.filter (fun k => k.Index = i) := by
        simp [List.filter_append, List.filter_cons, ha]
      rw [hf] at h
      rw [AList.lookup_insert_ne (Ne.symm ha)]
      exact ih h

theorem hashAll_of_pos (Sum256 : String → List Nat) (ringSize : Int) (pos : String → Int)
    (hpos : ∀ a, HashMod (hexEncode (Sum256 a)) ringSize = some (pos a))
    (addrs : List String) :
    NewConsistentHashRing.hashAll Sum256 ringSize addrs =
      some (addrs.map fun a => ({ Addr := a, Index := pos a } : Node)) := by
  induction addrs with
  | nil => rfl
  | cons a t ih => simp [NewConsistentHashRing.hashAll, hpos, ih]

/-- The ring `NewConsistentHashRing` builds, described through the position
function `pos` of the addresses. -/
theorem newRing_of_pos (Sum256 : String → List Nat) (ringSize : Int) (pos : String → Int)
    (hpos : ∀ a, HashMod (hexEncode (Sum256 a)) ringSize = some (pos a))
    (addrs : List String) :
    ∃ ring, NewConsistentHashRing Sum256 ringSize addrs = some ring ∧
      ring.RingSize = ringSize ∧
      ring.Nodes.length = addrs.length ∧ Ascending ring.Nodes ∧
      (∀ q : Int, (ring.Nodes.filter fun n => n.Index = q).length =
        (addrs.filter fun a => pos a = q).length) ∧
      (∀ n ∈ ring.Nodes, (addrs.filter fun a => pos a = n.Index).getLast? = some n.Addr) := by
  have hall := hashAll_of_pos Sum256 ringSize pos hpos addrs
  generalize hres : (addrs.map fun a => ({ Addr := a, Index := pos a } : Node)) = result at hall
  have hperm := List.perm_insertionSort (· ≤ ·) (result.map fun n => n.Index)
  have hsorted := List.sorted_insertionSort (· ≤ ·) (result.map fun n => n.Index)
  have hidx : (result.map fun n => n.Index) = addrs.map pos := by
    rw [← hres, List.map_map]
    rfl
  refine ⟨{ RingSize := ringSize
            Nodes := ((result.map fun n => n.Index).insertionSort (· ≤ ·)).map fun i =>
              ({ Addr := ((NewConsistentHashRing.sortMap result).lookup i).getD "", Index := i } :
                Node) },
    by simp only [NewConsistentHashRing, hall], rfl, ?_, ?_, ?_, ?_⟩
  · show (List.map _ _).length = _
    rw [List.length_map, hperm.length_eq, List.length_map, ← hres, List.length_map]
  · show List.Pairwise _ (List.map _ _)
    rw [List.pairwise_map]
    exact hsorted
  · intro q
    show ((List.map _ _).filter _).length = _
    rw [List.filter_map, List.length_map]
    have h1 : (((result.map fun n => n.Index).insertionSort (· ≤ ·)).filter
        ((fun n : Node => decide (n.Index = q)) ∘ fun i =>
          ({ Addr := ((NewConsistentHashRing.sortMap result).lookup i).getD "", Index := i } :
            Node))).Perm
        ((addrs.map pos).filter fun i => decide (i = q)) := by
      rw [← hidx]
      exact List.Perm.filter _ hperm
    rw [h1.length_eq, List.filter_map, List.length_map]
    rfl
  · intro n hn
    obtain ⟨i, hi, hin⟩ := List.mem_map.1 hn
    have hi1 : i ∈ addrs.map pos := by
      rw [← hidx]
      exact hperm.subset hi
    obtain ⟨a0, ha0, hpa0⟩ := List.mem_map.1 hi1
    have hfne : (addrs.filter fun a => pos a = i) ≠ [] :=
      List.ne_nil_of_mem (List.mem_filter.2 ⟨ha0, by simpa using hpa0⟩)
    obtain ⟨b, hb⟩ : ∃ b, (addrs.filter fun a => pos a = i).getLast? = some b :=
      ⟨_, List.getLast?_eq_getLast _ hfne⟩
    have hrl : (result.filter fun k => k.Index = i).getLast? =
        some ({ Addr := b, Index := pos b } : Node) := by
      rw [← hres, List.filter_map, List.getLast?_map]
      have : (addrs.filter ((fun k : Node => decide (k.Index = i)) ∘ fun a =>
          ({ Addr := a, Index := pos a } : Node))) = addrs.filter fun a => pos a = i := rfl
      rw [this, hb]
      rfl
    have hlook := sortMap_fold_last result ∅ i _ hrl
    rw [← hin]
    show (addrs.filter fun a => decide (pos a = i)).getLast? =
      some (((NewConsistentHashRing.sortMap result).lookup i).getD "")
    unfold NewConsistentHashRing.sortMap
    rw [hlook, hb]
    rfl

/-! ## Claims -/

/-- C1. On a non-empty ring sorted ascending by Index, for every point `p`:
if some node has `Index ≥ p`, `FindHostingNode p` returns the first such node
in list order (every node before it has `Index < p`), and no node with
`Index ≥ p` has a smaller Index; if every node has `Index < p`, it returns
list element 0, which has the minimum Index. -/
theorem FindHostingNode_first_at_or_after (ms : ConsistentHashRing) (p : Int)
    (hne : ms.Nodes ≠ []) (hs : Ascending ms.Nodes) :
    ((∃ m ∈ ms.Nodes, p ≤ m.Index) →
      ∃ front n back, ms.Nodes = front ++ n :: back ∧ (∀ m ∈ front, m.Index < p) ∧
        p ≤ n.Index ∧ ms.FindHostingNode p = some n ∧
        ∀ m ∈ ms.Nodes, p ≤ m.Index → n.Index ≤ m.Index) ∧
    ((∀ m ∈ ms.Nodes, m.Index < p) →
      ∃ n0 rest, ms.Nodes = n0 :: rest ∧ ms.FindHostingNode p = some n0 ∧
        ∀ m ∈ ms.Nodes, n0.Index ≤ m.Index) :=
  findHostingNode_cases ms p hne hs

/-- Witness of C1 on the ring with Indexes 100, 400, 700: point 550 gives the
node at 700 and point 750 wraps to the node at 100. -/
theorem FindHostingNode_first_at_or_after_witness :
    (ring3.Nodes ≠ [] ∧ Ascending ring3.Nodes) ∧
    (∃ n0 rest, ring3.Nodes = n0 :: rest ∧ ring3.FindHostingNode 750 = some n0 ∧
        ∀ m ∈ ring3.Nodes, n0.Index ≤ m.Index) ∧
    ring3.FindHostingNode 550 = some ⟨"n700", 700⟩ ∧
    ring3.FindHostingNode 750 = some ⟨"n100", 100⟩ :=
  ⟨⟨by decide, by decide⟩,
    (FindHostingNode_first_at_or_after ring3 750 (by decide) (by decide)).2 (by decide),
    by decide, by decide⟩

/-- C2. On a non-empty ring sorted ascending by Index, for every point `p`:
if some node has `Index < p`, `PrecedingNode p` returns the last node in list
order with `Index < p` (every node after it has `Index ≥ p`), and no node with
`Index < p` has a greater Index; if every node has `Index ≥ p`, it returns the
last list element, which has the maximum Index. -/
theorem PrecedingNode_last_before (ms : ConsistentHashRing) (p : Int)
    (hne : ms.Nodes ≠ []) (hs : Ascending ms.Nodes) :
    ((∃ m ∈ ms.Nodes, m.Index < p) →
      ∃ front n back, ms.Nodes = front ++ n :: back ∧ n.Index < p ∧
        (∀ m ∈ back, p ≤ m.Index) ∧ ms.PrecedingNode p = some n ∧
        ∀ m ∈ ms.Nodes, m.Index < p → m.Index ≤ n.Index) ∧
    ((∀ m ∈ ms.Nodes, p ≤ m.Index) →
      ∃ init last, ms.Nodes = init ++ [last] ∧ ms.PrecedingNode p = some last ∧
        ∀ m ∈ ms.Nodes, m.Index ≤ last.Index) :=
  precedingNode_cases ms p hne hs

/-- Witness of C2 on the ring with Indexes 100, 400, 700: point 100 wraps to
the node at 700 and point 550 gives the node at 400. -/
theorem PrecedingNode_last_before_witness :
    (ring3.Nodes ≠ [] ∧ Ascending ring3.Nodes) ∧
    (∃ init last, ring3.Nodes = init ++ [last] ∧ ring3.PrecedingNode 100 = some last ∧
        ∀ m ∈ ring3.Nodes, m.Index ≤ last.Index) ∧
    ring3.PrecedingNode 100 = some ⟨"n700", 700⟩ ∧
    ring3.PrecedingNode 550 = some ⟨"n400", 400⟩ :=
  ⟨⟨by decide, by decide⟩,
    (PrecedingNode_last_before ring3 100 (by decide) (by decide)).2 (by decide),
    by decide, by decide⟩

/-- C3. The range owned by a node is exactly the circular interval from the
position of its preceding node (exclusive) to its own position (inclusive): on
a ring strictly ascending by Index, for every node `n` of the ring and every
point `x`, `PrecedingNode n.Index` returns a node `pre`, and
`FindHostingNode x` is `n` if and only if `x` lies in `(pre.Index, n.Index]`
taken circularly. -/
theorem owned_range_exact (ms : ConsistentHashRing) (n : Node) (x : Int)
    (hs : StrictAscending ms.Nodes) (hn : n ∈ ms.Nodes) :
    ∃ pre, ms.PrecedingNode n.Index = some pre ∧
      (ms.FindHostingNode x = some n ↔ inCircular pre.Index n.Index x) := by
  have hne : ms.Nodes ≠ [] := List.ne_nil_of_mem hn
  obtain ⟨r, hr, hrm, hrp⟩ := precedingNode_mem ms n.Index hne (strict_ascending _ hs)
  refine ⟨r, hr, ?_⟩
  rw [findHostingNode_iff ms x n hs]
  unfold inCircular
  rcases hrp with ⟨r1, r2⟩ | ⟨r1, r2⟩
  · rw [if_pos r1]
    constructor
    · rintro ⟨_, ⟨h1, h2⟩ | ⟨h1, h2⟩⟩
      · refine ⟨?_, h1⟩
        by_contra hc
        have := h2 r hrm (by omega)
        omega
      · have := h2 r hrm; omega
    · rintro ⟨h1, h2⟩
      refine ⟨hn, Or.inl ⟨h2, ?_⟩⟩
      intro m hm hxm
      by_contra hc
      have := r2 m hm (by omega)
      omega
  · have hnr : ¬ r.Index < n.Index := by
      have := r1 r hrm; omega
    rw [if_neg hnr]
    constructor
    · rintro ⟨_, ⟨h1, h2⟩ | ⟨h1, h2⟩⟩
      · exact Or.inr h1
      · exact Or.inl (h1 r hrm)
    · rintro (h1 | h1)
      · refine ⟨hn, Or.inr ⟨?_, r1⟩⟩
        intro m hm
        have := r2 m hm; omega
      · exact ⟨hn, Or.inl ⟨h1, fun m hm _ => r1 m hm⟩⟩

/-- Witness of C3 on the ring with Indexes 100, 400, 700: the node at 100
owns the wrapped interval from 700 to 100, the node at 700 owns (400, 700]. -/
theorem owned_range_exact_witness :
    (StrictAscending ring3.Nodes ∧ (⟨"n100", 100⟩ : Node) ∈ ring3.Nodes) ∧
    (∃ pre, ring3.PrecedingNode 100 = some pre ∧
      (ring3.FindHostingNode 750 = some ⟨"n100", 100⟩ ↔ inCircular pre.Index 100 750)) ∧
    ring3.PrecedingNode 100 = some ⟨"n700", 700⟩ ∧ inCircular 700 100 750 ∧
    ring3.PrecedingNode 700 = some ⟨"n400", 400⟩ ∧ ¬ inCircular 400 700 750 :=
  ⟨⟨by decide, by decide⟩,
    owned_range_exact ring3 ⟨"n100", 100⟩ 750 (by decide) (by decide),
    by decide, by decide, by decide, by decide⟩

/-- C4. For a positive `ringSize` and addresses whose computed positions are
pairwise distinct, `NewConsistentHashRing` returns a ring with that `RingSize`
whose `Nodes` are strictly ascending by Index and are a rearrangement of the
list holding, for each input address `a` in turn, the one node with `Addr = a`
and `Index = ComputeNodeIndex a`: every such node once, and no other node. -/
theorem NewConsistentHashRing_sorted_exact (Sum256 : String → List Nat)
    (ringSize : Int) (addrs : List String) (hpos : 0 < ringSize)
    (hd : (addrs.map fun a =>
      ConsistentHashRing.ComputeNodeIndex Sum256 { RingSize := ringSize, Nodes := [] } a).Nodup) :
    ∃ ring expected, NewConsistentHashRing Sum256 ringSize addrs = some ring ∧
      ring.RingSize = ringSize ∧ StrictAscending ring.Nodes ∧
      List.Forall₂ (fun a n => n.Addr = a ∧ ring.ComputeNodeIndex Sum256 a = some n.Index)
        addrs expected ∧
      ring.Nodes.Perm expected := by
  have hne : ringSize ≠ 0 := by omega
  have hall := hashAll_eq Sum256 ringSize hne addrs
  generalize hres : (addrs.map fun a =>
    ({ Addr := a
       Index := (setBytes (hexDecode (hexEncode (Sum256 a)).data) : Int) % ringSize } : Node)) =
    result at hall
  have hidx : (result.map fun n => n.Index).Nodup := by
    rw [← hres, List.map_map]
    have hd1 := hd
    simp only [ConsistentHashRing.ComputeNodeIndex, hashMod_some _ _ hne] at hd1
    have := List.Nodup.of_map (fun i : Int => some i) (l := addrs.map fun a =>
      (setBytes (hexDecode (hexEncode (Sum256 a)).data) : Int) % ringSize)
      (by rw [List.map_map]; exact hd1)
    exact this
  have hperm := List.perm_insertionSort (· ≤ ·) (result.map fun n => n.Index)
  have hsorted := List.sorted_insertionSort (· ≤ ·) (result.map fun n => n.Index)
  have hstrict : List.Sorted (· < ·) ((result.map fun n => n.Index).insertionSort (· ≤ ·)) :=
    hsorted.lt_of_le (hperm.nodup_iff.2 hidx)
  refine ⟨{ RingSize := ringSize
            Nodes := ((result.map fun n => n.Index).insertionSort (· ≤ ·)).map fun i =>
              ({ Addr := ((NewConsistentHashRing.sortMap result).lookup i).getD "", Index := i } :
                Node) },
    result, by simp only [NewConsistentHashRing, hall], rfl, ?_, ?_, ?_⟩
  · show List.Pairwise _ (List.map _ _)
    rw [List.pairwise_map]
    exact hstrict
  · rw [← hres, List.forall₂_map_right_iff, List.forall₂_same]
    intro a _
    exact ⟨rfl, by simp [ConsistentHashRing.ComputeNodeIndex, hashMod_some _ _ hne]⟩
  · show List.Perm (List.map _ _) result
    refine (List.Perm.map _ hperm).trans ?_
    rw [List.map_map]
    have : ∀ n ∈ result, ((fun i =>
        ({ Addr := ((NewConsistentHashRing.sortMap result).lookup i).getD "", Index := i } : Node)) ∘
        fun n => n.Index) n = id n := by
      intro n hn
      simp [NewConsistentHashRing.sortMap, sortMap_fold_mem result ∅ hidx n hn]
    rw [List.map_congr_left this, List.map_id]

/-- Witness of C4: addresses "jr", "a", "b" with modulus 1000 have the
distinct positions 250, 97, 98 under the stand-in digest, and the ring holds
the three nodes in ascending order. -/
theorem NewConsistentHashRing_sorted_exact_witness :
    ((0 : Int) < 1000 ∧
      (["jr", "a", "b"].map fun a =>
        ConsistentHashRing.ComputeNodeIndex sampleDigest
          { RingSize := 1000, Nodes := [] } a).Nodup) ∧
    (∃ ring expected, NewConsistentHashRing sampleDigest 1000 ["jr", "a", "b"] = some ring ∧
      ring.RingSize = 1000 ∧ StrictAscending ring.Nodes ∧
      List.Forall₂
        (fun a n => n.Addr = a ∧ ring.ComputeNodeIndex sampleDigest a = some n.Index)
        ["jr", "a", "b"] expected ∧
      ring.Nodes.Perm expected) ∧
    NewConsistentHashRing sampleDigest 1000 ["jr", "a", "b"] =
      some { RingSize := 1000, Nodes := [⟨"a", 97⟩, ⟨"b", 98⟩, ⟨"jr", 250⟩] } :=
  ⟨⟨by decide, by decide⟩,
    NewConsistentHashRing_sorted_exact sampleDigest 1000 ["jr", "a", "b"]
      (by decide) (by decide),
    by decide⟩

/-- C5. Inverse law: on a non-empty ring sorted ascending by Index, for an
address whose computed position `p` is not the Index of any node of the ring,
`AddNode` returns a ring on which `RemoveNode` of the same address returns a
ring with the original `Nodes` (same nodes, same order) and the original
`RingSize`. -/
theorem AddNode_RemoveNode_inverse (Sum256 : String → List Nat)
    (ms : ConsistentHashRing) (addr : String) (p : Int)
    (hne : ms.Nodes ≠ []) (hs : Ascending ms.Nodes)
    (hp : ms.ComputeNodeIndex Sum256 addr = some p)
    (hfree : ∀ n ∈ ms.Nodes, n.Index ≠ p) :
    ∃ ms1 ms2, ms.AddNode Sum256 addr = some ms1 ∧
      ms1.RemoveNode Sum256 addr = some ms2 ∧
      ms2.Nodes = ms.Nodes ∧ ms2.RingSize = ms.RingSize := by
  have hnodes : (ms.Nodes.filter (fun n => n.Index < p) ++
      ({ Addr := addr, Index := p } : Node) :: ms.Nodes.filter (fun n => p < n.Index)).filter
        (fun n => n.Index ≠ p) = ms.Nodes := by
    have hA : ∀ m ∈ ms.Nodes.filter (fun n => n.Index < p), m.Index ≠ p :=
      fun m hm => hfree m (List.mem_filter.1 hm).1
    have hB : ∀ m ∈ ms.Nodes.filter (fun n => p < n.Index), m.Index ≠ p :=
      fun m hm => hfree m (List.mem_filter.1 hm).1
    simp only [List.filter_append, List.filter_cons, ne_eq, not_true_eq_false, decide_False,
      Bool.false_eq_true, if_false]
    have hA1 := filter_ne_self p _ hA
    have hB1 := filter_ne_self p _ hB
    simp only [ne_eq] at hA1 hB1
    rw [hA1, hB1]
    exact filter_split p ms.Nodes hs hfree
  refine ⟨_, ms, addNode_eq Sum256 ms addr p hne hs hp hfree, ?_, rfl, rfl⟩
  unfold ConsistentHashRing.ComputeNodeIndex at hp
  simp only [ConsistentHashRing.RemoveNode, hp, hnodes]

/-- Witness of C5: on the ring with Indexes 100, 400, 700 the address "jr"
has position 250 under the stand-in digest; adding and then removing it gives
the ring back. -/
theorem AddNode_RemoveNode_inverse_witness :
    (ring3.Nodes ≠ [] ∧ Ascending ring3.Nodes ∧
      ring3.ComputeNodeIndex sampleDigest "jr" = some 250 ∧
      ∀ n ∈ ring3.Nodes, n.Index ≠ 250) ∧
    ∃ ms1 ms2, ring3.AddNode sampleDigest "jr" = some ms1 ∧
      ms1.RemoveNode sampleDigest "jr" = some ms2 ∧
      ms2.Nodes = ring3.Nodes ∧ ms2.RingSize = ring3.RingSize :=
  ⟨⟨by decide, by decide, by decide, by decide⟩,
    AddNode_RemoveNode_inverse sampleDigest ring3 "jr" 250
      (by decide) (by decide) (by decide) (by decide)⟩

/-- C6. Add does not disturb ranges it does not own: on a non-empty ring
strictly ascending by Index, for an address whose position `p` is unoccupied,
`AddNode` returns a ring `ms1`; with `pre = PrecedingNode p` and
`h = FindHostingNode x` taken on the ring before the add, `FindHostingNode x`
on `ms1` is the new node when `x` lies in the circular interval
`(pre.Index, p]`, and is `h` for every other `x`. -/
theorem AddNode_frame (Sum256 : String → List Nat)
    (ms : ConsistentHashRing) (addr : String) (p x : Int)
    (hne : ms.Nodes ≠ []) (hs : StrictAscending ms.Nodes)
    (hp : ms.ComputeNodeIndex Sum256 addr = some p)
    (hfree : ∀ n ∈ ms.Nodes, n.Index ≠ p) :
    ∃ ms1 pre h, ms.AddNode Sum256 addr = some ms1 ∧
      ms.PrecedingNode p = some pre ∧ ms.FindHostingNode x = some h ∧
      (inCircular pre.Index p x →
        ms1.FindHostingNode x = some { Addr := addr, Index := p }) ∧
      (¬ inCircular pre.Index p x → ms1.FindHostingNode x = some h) := by
  have hasc := strict_ascending _ hs
  obtain ⟨pre, hpre, hprem, hprec⟩ := precedingNode_mem ms p hne hasc
  obtain ⟨h, hh, hhm, hhc⟩ := findHostingNode_mem ms x hne hasc
  refine ⟨_, pre, h, addNode_eq Sum256 ms addr p hne hasc hp hfree, hpre, hh, ?_, ?_⟩
  · intro hin
    rw [findHostingNode_iff _ _ _ (inserted_strict p _ ms.Nodes rfl hs)]
    refine ⟨(inserted_mem p _ ms.Nodes hfree _).2 (Or.inl rfl), ?_⟩
    unfold inCircular at hin
    rcases hprec with ⟨r1, r2⟩ | ⟨r1, r2⟩
    · rw [if_pos r1] at hin
      refine Or.inl ⟨hin.2, ?_⟩
      intro m hm hxm
      rcases (inserted_mem p _ ms.Nodes hfree m).1 hm with rfl | hm
      · exact le_refl _
      · by_contra hc
        have := r2 m hm (by simp at hc; omega)
        omega
    · have hnl : ¬ pre.Index < p := by have := r1 pre hprem; omega
      rw [if_neg hnl] at hin
      by_cases hxp : x ≤ p
      · refine Or.inl ⟨hxp, ?_⟩
        intro m hm _
        rcases (inserted_mem p _ ms.Nodes hfree m).1 hm with rfl | hm
        · exact le_refl _
        · exact r1 m hm
      · have hlx : pre.Index < x := by
          rcases hin with h1 | h1
          · exact h1
          · exact absurd h1 hxp
        refine Or.inr ⟨?_, ?_⟩
        · intro m hm
          rcases (inserted_mem p _ ms.Nodes hfree m).1 hm with rfl | hm
          · simp; omega
          · have := r2 m hm; omega
        · intro m hm
          rcases (inserted_mem p _ ms.Nodes hfree m).1 hm with rfl | hm
          · exact le_refl _
          · exact r1 m hm
  · intro hout
    rw [findHostingNode_iff _ _ _ (inserted_strict p _ ms.Nodes rfl hs)]
    refine ⟨(inserted_mem p _ ms.Nodes hfree _).2 (Or.inr hhm), ?_⟩
    unfold inCircular at hout
    rcases hprec with ⟨r1, r2⟩ | ⟨r1, r2⟩
    · rw [if_pos r1] at hout
      rcases hhc with ⟨c1, c2⟩ | ⟨c1, c2⟩
      · refine Or.inl ⟨c1, ?_⟩
        intro m hm hxm
        rcases (inserted_mem p _ ms.Nodes hfree m).1 hm with rfl | hm
        · simp at hxm ⊢
          have hxl : x ≤ pre.Index := by
            by_contra hc
            exact hout ⟨by omega, hxm⟩
          have := c2 pre hprem hxl
          omega
        · exact c2 m hm hxm
      · have hpx : p < x := by
          by_contra hc
          have := c1 pre hprem
          exact hout ⟨this, by omega⟩
        refine Or.inr ⟨?_, ?_⟩
        · intro m hm
          rcases (inserted_mem p _ ms.Nodes hfree m).1 hm with rfl | hm
          · exact hpx
          · exact c1 m hm
        · intro m hm
          rcases (inserted_mem p _ ms.Nodes hfree m).1 hm with rfl | hm
          · simp
            have := c2 pre hprem
            omega
          · exact c2 m hm
    · have hnl : ¬ pre.Index < p := by have := r1 pre hprem; omega
      rw [if_neg hnl] at hout
      have hx1 : p < x := by
        by_contra hc
        exact hout (Or.inr (by omega))
      have hx2 : x ≤ pre.Index := by
        by_contra hc
        exact hout (Or.inl (by omega))
      rcases hhc with ⟨c1, c2⟩ | ⟨c1, c2⟩
      · refine Or.inl ⟨c1, ?_⟩
        intro m hm hxm
        rcases (inserted_mem p _ ms.Nodes hfree m).1 hm with rfl | hm
        · simp at hxm; omega
        · exact c2 m hm hxm
      · have := c1 pre hprem
        omega

/-- Witness of C6: modulus 1000, Indexes 100, 400, 700, new position 250
(address "jr" under the stand-in digest): point 550 still maps to 700, point
750 still maps to 100, point 150 maps to 250 where it mapped to 400 before. -/
theorem AddNode_frame_witness :
    (ring3.Nodes ≠ [] ∧ StrictAscending ring3.Nodes ∧
      ring3.ComputeNodeIndex sampleDigest "jr" = some 250 ∧
      ∀ n ∈ ring3.Nodes, n.Index ≠ 250) ∧
    (∃ ms1 pre h, ring3.AddNode sampleDigest "jr" = some ms1 ∧
      ring3.PrecedingNode 250 = some pre ∧ ring3.FindHostingNode 150 = some h ∧
      (inCircular pre.Index 250 150 →
        ms1.FindHostingNode 150 = some { Addr := "jr", Index := 250 }) ∧
      (¬ inCircular pre.Index 250 150 → ms1.FindHostingNode 150 = some h)) ∧
    (∃ ms1, ring3.AddNode sampleDigest "jr" = some ms1 ∧
      ms1.FindHostingNode 550 = some ⟨"n700", 700⟩ ∧
      ms1.FindHostingNode 750 = some ⟨"n100", 100⟩ ∧
      ms1.FindHostingNode 150 = some ⟨"jr", 250⟩ ∧
      ring3.FindHostingNode 150 = some ⟨"n400", 400⟩) :=
  ⟨⟨by decide, by decide, by decide, by decide⟩,
    AddNode_frame sampleDigest ring3 "jr" 250 150
      (by decide) (by decide) (by decide) (by decide),
    ⟨{ RingSize := 1000
       Nodes := [⟨"n100", 100⟩, ⟨"jr", 250⟩, ⟨"n400", 400⟩, ⟨"n700", 700⟩] },
      by decide, by decide, by decide, by decide, by decide⟩⟩

/-- C7. With `cur` the stored Version of `c.Filename` (0 when no record
exists), `UpdateFile c` returns no error if and only if `c.Version` is
`cur + 1` as Go computes it on `int` (`addInt`), which is the integer `cur + 1`
whenever `cur` is a 64-bit value below the largest one; and when no error is
returned, the record stored under `c.Filename` afterwards is `c` in full and
`latestVersion` is `c.Version`. -/
theorem UpdateFile_accepts_exactly_next (m : MetaStore) (c : FileMetaData) :
    ((m.UpdateFile c).err = none ↔ c.Version = addInt (m.versionOf c.Filename) 1) ∧
    ((-2 ^ 63 ≤ m.versionOf c.Filename ∧ m.versionOf c.Filename < 2 ^ 63 - 1) →
      ((m.UpdateFile c).err = none ↔ c.Version = m.versionOf c.Filename + 1)) ∧
    ((m.UpdateFile c).err = none →
      (m.UpdateFile c).store.FileMetaMap.lookup c.Filename = some c ∧
      (m.UpdateFile c).latestVersion = c.Version) := by
  have hiff : (m.UpdateFile c).err = none ↔
      c.Version = addInt (m.versionOf c.Filename) 1 := by
    constructor
    · intro he
      by_contra hne
      rw [(updateFile_reject m c hne).1] at he
      cases he
    · intro h
      exact (updateFile_accept m c h).1
  refine ⟨hiff, ?_, ?_⟩
  · intro hr
    rw [hiff, addInt_one _ hr]
  · intro he
    obtain ⟨_, hmap, _, hlv⟩ := updateFile_accept m c (hiff.1 he)
    rw [hmap]
    exact ⟨AList.lookup_insert _, hlv⟩

/-- Witness of C7: on a store without the file, a candidate with Version 1 is
accepted and Version 1 is stored. -/
theorem UpdateFile_accepts_exactly_next_witness :
    ((-2 ^ 63 ≤ emptyStore.versionOf fileV1.Filename ∧
        emptyStore.versionOf fileV1.Filename < 2 ^ 63 - 1) ∧
      (emptyStore.UpdateFile fileV1).err = none) ∧
    ((emptyStore.UpdateFile fileV1).err = none ↔
      fileV1.Version = emptyStore.versionOf fileV1.Filename + 1) ∧
    ((emptyStore.UpdateFile fileV1).store.FileMetaMap.lookup fileV1.Filename = some fileV1 ∧
      (emptyStore.UpdateFile fileV1).latestVersion = fileV1.Version) ∧
    (emptyStore.UpdateFile fileV1).store.versionOf "f" = 1 :=
  ⟨⟨⟨by decide, by decide⟩, by decide⟩,
    (UpdateFile_accepts_exactly_next emptyStore fileV1).2.1 ⟨by decide, by decide⟩,
    (UpdateFile_accepts_exactly_next emptyStore fileV1).2.2 (by decide),
    by decide⟩

/-- C8. With `cur` the stored Version of `c.Filename` (0 when no record
exists), a candidate whose Version differs from `cur + 1` (as Go computes it
on `int`; the integer `cur + 1` whenever `cur` is a 64-bit value below the
largest one) is rejected: `UpdateFile c` returns the version-conflict error
naming the submitted, the expected and the latest version, leaves the store
exactly as it was (no record changed, none created) and sets `latestVersion`
to `cur`. -/
theorem UpdateFile_rejects_other (m : MetaStore) (c : FileMetaData) :
    (c.Version ≠ addInt (m.versionOf c.Filename) 1 →
      (m.UpdateFile c).err = some
        { yours := c.Version
          expected := addInt (m.versionOf c.Filename) 1
          latest := m.versionOf c.Filename } ∧
      (m.UpdateFile c).store.FileMetaMap = m.FileMetaMap ∧
      (m.UpdateFile c).store.BlockStoreRing = m.BlockStoreRing ∧
      (m.UpdateFile c).latestVersion = m.versionOf c.Filename) ∧
    ((-2 ^ 63 ≤ m.versionOf c.Filename ∧ m.versionOf c.Filename < 2 ^ 63 - 1) →
      c.Version ≠ m.versionOf c.Filename + 1 →
      (m.UpdateFile c).err = some
        { yours := c.Version
          expected := m.versionOf c.Filename + 1
          latest := m.versionOf c.Filename } ∧
      (m.UpdateFile c).store.FileMetaMap = m.FileMetaMap ∧
      (m.UpdateFile c).store.BlockStoreRing = m.BlockStoreRing ∧
      (m.UpdateFile c).latestVersion = m.versionOf c.Filename) := by
  have hmain : c.Version ≠ addInt (m.versionOf c.Filename) 1 →
      (m.UpdateFile c).err = some
        { yours := c.Version
          expected := addInt (m.versionOf c.Filename) 1
          latest := m.versionOf c.Filename } ∧
      (m.UpdateFile c).store.FileMetaMap = m.FileMetaMap ∧
      (m.UpdateFile c).store.BlockStoreRing = m.BlockStoreRing ∧
      (m.UpdateFile c).latestVersion = m.versionOf c.Filename := by
    intro h
    obtain ⟨he, hs, hl⟩ := updateFile_reject m c h
    exact ⟨he, by rw [hs], by rw [hs], hl⟩
  refine ⟨hmain, ?_⟩
  intro hr hne
  have := hmain (by rw [addInt_one _ hr]; exact hne)
  rw [addInt_one _ hr] at this
  exact this

/-- Witness of C8: after Version 1 was accepted, a second candidate with
Version 1 is rejected and the stored Version remains 1; a candidate with
Version 3 against the record at Version 1 is rejected as well. -/
theorem UpdateFile_rejects_other_witness :
    ((-2 ^ 63 ≤ storeV1.versionOf fileV1.Filename ∧
        storeV1.versionOf fileV1.Filename < 2 ^ 63 - 1) ∧
      fileV1.Version ≠ storeV1.versionOf fileV1.Filename + 1 ∧
      fileV3.Version ≠ addInt (storeV1.versionOf fileV3.Filename) 1) ∧
    ((storeV1.UpdateFile fileV1).err = some
        { yours := fileV1.Version
          expected := storeV1.versionOf fileV1.Filename + 1
          latest := storeV1.versionOf fileV1.Filename } ∧
      (storeV1.UpdateFile fileV1).store.FileMetaMap = storeV1.FileMetaMap ∧
      (storeV1.UpdateFile fileV1).store.BlockStoreRing = storeV1.BlockStoreRing ∧
      (storeV1.UpdateFile fileV1).latestVersion = storeV1.versionOf fileV1.Filename) ∧
    ((storeV1.UpdateFile fileV3).err = some
        { yours := fileV3.Version
          expected := addInt (storeV1.versionOf fileV3.Filename) 1
          latest := storeV1.versionOf fileV3.Filename } ∧
      (storeV1.UpdateFile fileV3).store.FileMetaMap = storeV1.FileMetaMap ∧
      (storeV1.UpdateFile fileV3).store.BlockStoreRing = storeV1.BlockStoreRing ∧
      (storeV1.UpdateFile fileV3).latestVersion = storeV1.versionOf fileV3.Filename) ∧
    storeV1.versionOf "f" = 1 ∧
    (storeV1.UpdateFile fileV1).err = some { yours := 1, expected := 2, latest := 1 } ∧
    (storeV1.UpdateFile fileV3).err = some { yours := 3, expected := 2, latest := 1 } ∧
    (storeV1.UpdateFile fileV1).store.versionOf "f" = 1 ∧
    (storeV1.UpdateFile fileV3).store.versionOf "f" = 1 :=
  ⟨⟨⟨by decide, by decide⟩, by decide, by decide⟩,
    (UpdateFile_rejects_other storeV1 fileV1).2 ⟨by decide, by decide⟩ (by decide),
    (UpdateFile_rejects_other storeV1 fileV3).1 (by decide),
    by decide, by decide, by decide, by decide, by decide⟩

/-- C9. On a store whose ring is non-empty with positive `RingSize`, for every
list of block keys and an initially empty output map, `GetBlockStoreMap`
returns a map whose buckets, taken together, are a rearrangement of the input
list (equal to it as a multiset: nothing added, nothing lost, every occurrence
in one bucket), and every key in the bucket under address `a` has
`FindHostingNode(ComputeBlockIndex(key)).Addr = a`. -/
theorem GetBlockStoreMap_partition (m : MetaStore) (keys : List String)
    (hne : m.BlockStoreRing.Nodes ≠ []) (hR : 0 < m.BlockStoreRing.RingSize) :
    ∃ bsm, m.GetBlockStoreMap keys ∅ = some bsm ∧
      (bsm.entries.flatMap fun e => e.2).Perm keys ∧
      ∀ a l, bsm.lookup a = some l → ∀ k ∈ l,
        ∃ i n, m.BlockStoreRing.ComputeBlockIndex k = some i ∧
          m.BlockStoreRing.FindHostingNode i = some n ∧ n.Addr = a := by
  obtain ⟨bsm, hrun, hperm, hlook⟩ := getBlockStoreMap_inv m hne (by omega) keys ∅
  refine ⟨bsm, hrun, by simpa using hperm, ?_⟩
  intro a l hl k hk
  have h1 := (hlook a).1
  rw [hl, AList.lookup_empty] at h1
  simp only [Option.getD_some, Option.getD_none, List.nil_append] at h1
  rw [h1] at hk
  have := (List.mem_filter.1 hk).2
  exact (hostAddr_iff _ _ _).1 (by simpa using this)

/-- Witness of C9 on the ring with Indexes 100, 400, 700 and size 1000: of the
keys "0226", "02ee", "0226" the node at 700 gets both copies of "0226" and the
node at 100 gets "02ee". -/
theorem GetBlockStoreMap_partition_witness :
    (emptyStore.BlockStoreRing.Nodes ≠ [] ∧ 0 < emptyStore.BlockStoreRing.RingSize) ∧
    (∃ bsm, emptyStore.GetBlockStoreMap sampleKeys ∅ = some bsm ∧
      (bsm.entries.flatMap fun e => e.2).Perm sampleKeys ∧
      ∀ a l, bsm.lookup a = some l → ∀ k ∈ l,
        ∃ i n, emptyStore.BlockStoreRing.ComputeBlockIndex k = some i ∧
          emptyStore.BlockStoreRing.FindHostingNode i = some n ∧ n.Addr = a) ∧
    (emptyStore.GetBlockStoreMap sampleKeys ∅).map
      (fun bsm => bsm.entries.flatMap fun e => e.2) = some ["0226", "0226", "02ee"] :=
  ⟨⟨by decide, by decide⟩,
    GetBlockStoreMap_partition emptyStore sampleKeys (by decide) (by decide),
    by decide⟩

/-- C10. On a store whose ring is non-empty with positive `RingSize`, for
every list of block keys and an initially empty output map, the bucket
`GetBlockStoreMap` leaves under an address `a` is the input list filtered to
the keys whose hosting node has address `a`, order and repetitions kept; an
address that hosts no input key has no bucket. -/
theorem GetBlockStoreMap_bucket_order (m : MetaStore) (keys : List String)
    (hne : m.BlockStoreRing.Nodes ≠ []) (hR : 0 < m.BlockStoreRing.RingSize) :
    ∃ bsm, m.GetBlockStoreMap keys ∅ = some bsm ∧
      ∀ a, bsm.lookup a =
        if keys.filter (fun k => m.BlockStoreRing.hostAddr k = some a) = [] then none
        else some (keys.filter fun k => m.BlockStoreRing.hostAddr k = some a) := by
  obtain ⟨bsm, hrun, _, hlook⟩ := getBlockStoreMap_inv m hne (by omega) keys ∅
  refine ⟨bsm, hrun, ?_⟩
  intro a
  obtain ⟨h1, h2⟩ := hlook a
  rw [AList.lookup_empty] at h1 h2
  simp only [Option.getD_none, List.nil_append, true_and] at h1 h2
  by_cases hf : keys.filter (fun k => m.BlockStoreRing.hostAddr k = some a) = []
  · rw [if_pos hf]
    exact h2.2 hf
  · rw [if_neg hf]
    cases hl : bsm.lookup a with
    | none => exact absurd (h2.1 hl) hf
    | some l =>
      rw [hl] at h1
      simp only [Option.getD_some] at h1
      rw [h1]

/-- Witness of C10 on the ring with Indexes 100, 400, 700 and size 1000: the
bucket of the node at 700 is "0226", "0226", the one of the node at 100 is
"02ee", and the node at 400 has no bucket. -/
theorem GetBlockStoreMap_bucket_order_witness :
    (emptyStore.BlockStoreRing.Nodes ≠ [] ∧ 0 < emptyStore.BlockStoreRing.RingSize) ∧
    (∃ bsm, emptyStore.GetBlockStoreMap sampleKeys ∅ = some bsm ∧
      ∀ a, bsm.lookup a =
        if sampleKeys.filter (fun k => emptyStore.BlockStoreRing.hostAddr k = some a) = []
        then none
        else some (sampleKeys.filter fun k => emptyStore.BlockStoreRing.hostAddr k = some a)) ∧
    (emptyStore.GetBlockStoreMap sampleKeys ∅).map (fun bsm => bsm.lookup "n700") =
      some (some ["0226", "0226"]) ∧
    (emptyStore.GetBlockStoreMap sampleKeys ∅).map (fun bsm => bsm.lookup "n100") =
      some (some ["02ee"]) ∧
    (emptyStore.GetBlockStoreMap sampleKeys ∅).map (fun bsm => bsm.lookup "n400") =
      some none :=
  ⟨⟨by decide, by decide⟩,
    GetBlockStoreMap_bucket_order emptyStore sampleKeys (by decide) (by decide),
    by decide, by decide, by decide⟩

/-- C11. On a store with a non-empty ring (and a `RingSize` other than 0, so
that the call gets as far as the dial), for every address: `MetaStore.AddNode`
prepares a dial target and an instruction, and whenever the dial returns an
error, or the dial succeeds and the `BlockStore.MigrateBlocks` call returns an
error, `MetaStore.AddNode` returns that error with `BlockStoreRing` and
`FileMetaMap` exactly as before; a returned store whose ring differs from the
one before means that both the dial and the call returned no error.  The same
holds for `MetaStore.RemoveNode`, which dials the leaving address itself. -/
theorem membership_error_aborts (Sum256 : String → List Nat) (net : Network)
    (m : MetaStore) (addr : String) (succ : Bool)
    (hne : m.BlockStoreRing.Nodes ≠ []) (hR : m.BlockStoreRing.RingSize ≠ 0) :
    (∃ target inst, MetaStore.AddNode.prepare Sum256 m addr = some (target, inst) ∧
      (∀ e, (net.dial target.Addr = some e ∨
          (net.dial target.Addr = none ∧ (net.call target.Addr inst succ).1 = some e)) →
        ∃ r, m.AddNode Sum256 net addr succ = some r ∧ r.err = some e ∧
          r.store.BlockStoreRing = m.BlockStoreRing ∧
          r.store.FileMetaMap = m.FileMetaMap) ∧
      (∀ r, m.AddNode Sum256 net addr succ = some r →
        r.store.BlockStoreRing ≠ m.BlockStoreRing →
        net.dial target.Addr = none ∧ (net.call target.Addr inst succ).1 = none)) ∧
    (∃ target inst, MetaStore.RemoveNode.prepare Sum256 m addr = some (target, inst) ∧
      (∀ e, (net.dial addr = some e ∨
          (net.dial addr = none ∧ (net.call addr inst succ).1 = some e)) →
        ∃ r, m.RemoveNode Sum256 net addr succ = some r ∧ r.err = some e ∧
          r.store.BlockStoreRing = m.BlockStoreRing ∧
          r.store.FileMetaMap = m.FileMetaMap) ∧
      (∀ r, m.RemoveNode Sum256 net addr succ = some r →
        r.store.BlockStoreRing ≠ m.BlockStoreRing →
        net.dial addr = none ∧ (net.call addr inst succ).1 = none)) := by
  constructor
  · obtain ⟨target, inst, hprep⟩ := addNode_prepare_some Sum256 m addr hne hR
    obtain ⟨hdial, hcall, _⟩ := metaAddNode_outcome Sum256 net m addr succ target inst hprep
    refine ⟨target, inst, hprep, ?_, ?_⟩
    · rintro e (hd | ⟨hd, hc⟩)
      · exact ⟨_, hdial e hd, rfl, rfl, rfl⟩
      · exact ⟨_, hcall e hd hc, rfl, rfl, rfl⟩
    · intro r hr hdiff
      cases hd : net.dial target.Addr with
      | some e =>
        rw [hdial e hd] at hr
        cases hr
        exact absurd rfl hdiff
      | none =>
        cases hc : (net.call target.Addr inst succ).1 with
        | some e =>
          rw [hcall e hd hc] at hr
          cases hr
          exact absurd rfl hdiff
        | none => exact ⟨rfl, rfl⟩
  · obtain ⟨target, inst, hprep⟩ := removeNode_prepare_some Sum256 m addr hne hR
    obtain ⟨hdial, hcall, _⟩ := metaRemoveNode_outcome Sum256 net m addr succ target inst hprep
    refine ⟨target, inst, hprep, ?_, ?_⟩
    · rintro e (hd | ⟨hd, hc⟩)
      · exact ⟨_, hdial e hd, rfl, rfl, rfl⟩
      · exact ⟨_, hcall e hd hc, rfl, rfl, rfl⟩
    · intro r hr hdiff
      cases hd : net.dial addr with
      | some e =>
        rw [hdial e hd] at hr
        cases hr
        exact absurd rfl hdiff
      | none =>
        cases hc : (net.call addr inst succ).1 with
        | some e =>
          rw [hcall e hd hc] at hr
          cases hr
          exact absurd rfl hdiff
        | none => exact ⟨rfl, rfl⟩

/-- Witness of C11: on the scenario ring a refused dial makes
`MetaStore.AddNode` return the dial error, and a failing migration call makes
`MetaStore.RemoveNode` return the call error, the store being left as it was. -/
theorem membership_error_aborts_witness :
    (emptyStore.BlockStoreRing.Nodes ≠ [] ∧ emptyStore.BlockStoreRing.RingSize ≠ 0 ∧
      storeRing4.BlockStoreRing.Nodes ≠ [] ∧ storeRing4.BlockStoreRing.RingSize ≠ 0) ∧
    (∃ r, emptyStore.AddNode sampleDigest netDialFails "jr" true = some r ∧
      r.err = some "connection refused" ∧
      r.store.BlockStoreRing = emptyStore.BlockStoreRing ∧
      r.store.FileMetaMap = emptyStore.FileMetaMap) ∧
    (∃ r, storeRing4.RemoveNode sampleDigest netCallFails "jr" true = some r ∧
      r.err = some "migration failed" ∧
      r.store.BlockStoreRing = storeRing4.BlockStoreRing ∧
      r.store.FileMetaMap = storeRing4.FileMetaMap) :=
  ⟨⟨by decide, by decide, by decide, by decide⟩,
    (membership_error_aborts sampleDigest netDialFails emptyStore "jr" true
      (by decide) (by decide)).1.elim
      fun _ h => h.elim fun _ h => h.2.1 "connection refused" (Or.inl rfl),
    (membership_error_aborts sampleDigest netCallFails storeRing4 "jr" true
      (by decide) (by decide)).2.elim
      fun _ h => h.elim fun _ h => h.2.1 "migration failed" (Or.inr ⟨rfl, rfl⟩)⟩

/-- C12 fails as stated: on the scenario ring, with a migration call that
returns no error and leaves the success flag false, `MetaStore.AddNode` of
"jr" returns no error and the ring holds the new node, and
`MetaStore.RemoveNode` of "jr" returns no error and the ring has lost the
node. -/
theorem false_flag_not_a_failure :
    netFlagFalse.dial "n400" = none ∧
    (∀ inst, netFlagFalse.call "n400" inst true = (none, false)) ∧
    (emptyStore.AddNode sampleDigest netFlagFalse "jr" true).map
        (fun r => (r.succ, r.err, r.store.BlockStoreRing.Nodes)) =
      some (false, none, [⟨"n100", 100⟩, ⟨"jr", 250⟩, ⟨"n400", 400⟩, ⟨"n700", 700⟩]) ∧
    emptyStore.BlockStoreRing.Nodes = [⟨"n100", 100⟩, ⟨"n400", 400⟩, ⟨"n700", 700⟩] ∧
    (storeRing4.RemoveNode sampleDigest netFlagFalse "jr" true).map
        (fun r => (r.succ, r.err, r.store.BlockStoreRing.Nodes)) =
      some (false, none, [⟨"n100", 100⟩, ⟨"n400", 400⟩, ⟨"n700", 700⟩]) ∧
    storeRing4.BlockStoreRing.Nodes =
      [⟨"n100", 100⟩, ⟨"jr", 250⟩, ⟨"n400", 400⟩, ⟨"n700", 700⟩] :=
  ⟨rfl, fun _ => rfl, by decide, by decide, by decide, by decide⟩

/-- C12 as amended. The success flag is not inspected: on a store with a
non-empty ring and a `RingSize` other than 0, for every address, if the dial
and the `BlockStore.MigrateBlocks` call return no error, then whatever value
the call leaves in the flag (false included), `MetaStore.AddNode` returns a
store whose ring is the one `ConsistentHashRing.AddNode` gives, with
`FileMetaMap` unchanged, hands the flag on through `succ`, and returns the
error of closing the connection; `MetaStore.RemoveNode` does the same with
`ConsistentHashRing.RemoveNode`. -/
theorem membership_commits_whatever_flag (Sum256 : String → List Nat) (net : Network)
    (m : MetaStore) (addr : String) (succ : Bool)
    (hne : m.BlockStoreRing.Nodes ≠ []) (hR : m.BlockStoreRing.RingSize ≠ 0) :
    (∃ target inst ring, MetaStore.AddNode.prepare Sum256 m addr = some (target, inst) ∧
      m.BlockStoreRing.AddNode Sum256 addr = some ring ∧
      (net.dial target.Addr = none → (net.call target.Addr inst succ).1 = none →
        ∃ r, m.AddNode Sum256 net addr succ = some r ∧
          r.store.BlockStoreRing = ring ∧ r.store.FileMetaMap = m.FileMetaMap ∧
          r.succ = (net.call target.Addr inst succ).2 ∧
          r.err = net.close target.Addr)) ∧
    (∃ target inst ring, MetaStore.RemoveNode.prepare Sum256 m addr = some (target, inst) ∧
      m.BlockStoreRing.RemoveNode Sum256 addr = some ring ∧
      (net.dial addr = none → (net.call addr inst succ).1 = none →
        ∃ r, m.RemoveNode Sum256 net addr succ = some r ∧
          r.store.BlockStoreRing = ring ∧ r.store.FileMetaMap = m.FileMetaMap ∧
          r.succ = (net.call addr inst succ).2 ∧
          r.err = net.close addr)) := by
  constructor
  · obtain ⟨target, inst, hprep⟩ := addNode_prepare_some Sum256 m addr hne hR
    obtain ⟨ring, hring⟩ := ring_addNode_some Sum256 m.BlockStoreRing addr hne hR
    obtain ⟨_, _, hok⟩ := metaAddNode_outcome Sum256 net m addr succ target inst hprep
    exact ⟨target, inst, ring, hprep, hring, fun hd hc =>
      ⟨_, hok ring hd hc hring, rfl, rfl, rfl, rfl⟩⟩
  · obtain ⟨target, inst, hprep⟩ := removeNode_prepare_some Sum256 m addr hne hR
    obtain ⟨ring, hring⟩ := ring_removeNode_some Sum256 m.BlockStoreRing addr hR
    obtain ⟨_, _, hok⟩ := metaRemoveNode_outcome Sum256 net m addr succ target inst hprep
    exact ⟨target, inst, ring, hprep, hring, fun hd hc =>
      ⟨_, hok ring hd hc hring, rfl, rfl, rfl, rfl⟩⟩

/-- Witness of the amended C12 on the scenario ring with a call that leaves
the flag false. -/
theorem membership_commits_whatever_flag_witness :
    (emptyStore.BlockStoreRing.Nodes ≠ [] ∧ emptyStore.BlockStoreRing.RingSize ≠ 0) ∧
    (∃ target inst ring,
      MetaStore.AddNode.prepare sampleDigest emptyStore "jr" = some (target, inst) ∧
      emptyStore.BlockStoreRing.AddNode sampleDigest "jr" = some ring ∧
      (netFlagFalse.dial target.Addr = none →
        (netFlagFalse.call target.Addr inst true).1 = none →
        ∃ r, emptyStore.AddNode sampleDigest netFlagFalse "jr" true = some r ∧
          r.store.BlockStoreRing = ring ∧ r.store.FileMetaMap = emptyStore.FileMetaMap ∧
          r.succ = (netFlagFalse.call target.Addr inst true).2 ∧
          r.err = netFlagFalse.close target.Addr)) :=
  ⟨⟨by decide, by decide⟩,
    (membership_commits_whatever_flag sampleDigest netFlagFalse emptyStore "jr" true
      (by decide) (by decide)).1⟩

/-- C13. On a ring with positive `RingSize`, for a block key that is a text of
hexadecimal digits of even length, `ComputeBlockIndex key` is the unsigned
big-endian integer value of the decoded bytes (one byte per two digits, all of
them decoded; the value is the number the key denotes in base 16) reduced
modulo `RingSize`, and lies in `[0, RingSize)`.  The key is not hashed: no
digest function enters the computation. -/
theorem ComputeBlockIndex_value_mod (ms : ConsistentHashRing) (key : String)
    (hR : 0 < ms.RingSize) (heven : key.data.length % 2 = 0)
    (hhex : ∀ c ∈ key.data, (hexDigit c).isSome) :
    ∃ i, ms.ComputeBlockIndex key = some i ∧
      i = (bigEndianValue (hexDecode key.data) : Int) % ms.RingSize ∧
      (hexDecode key.data).length * 2 = key.data.length ∧
      bigEndianValue (hexDecode key.data) = hexNumber key.data ∧
      0 ≤ i ∧ i < ms.RingSize := by
  have hne : ms.RingSize ≠ 0 := by omega
  obtain ⟨hlen, hval⟩ := hexDecode_valid (key.data.length / 2) key.data 0 (by omega) hhex
  refine ⟨_, by rw [ConsistentHashRing.ComputeBlockIndex, hashMod_some _ _ hne], ?_, by omega,
    ?_, Int.emod_nonneg _ hne, Int.emod_lt_of_pos _ hR⟩
  · rw [setBytes_eq_bigEndian]
  · rw [← setBytes_eq_bigEndian]
    exact hval

/-- Witness of C13: with `RingSize` 1000 the key "0226" gives 550 and the key
"02ee" gives 750. -/
theorem ComputeBlockIndex_value_mod_witness :
    ((0 : Int) < ring3.RingSize ∧ "0226".data.length % 2 = 0 ∧
      ∀ c ∈ "0226".data, (hexDigit c).isSome) ∧
    (∃ i, ring3.ComputeBlockIndex "0226" = some i ∧
      i = (bigEndianValue (hexDecode "0226".data) : Int) % ring3.RingSize ∧
      (hexDecode "0226".data).length * 2 = "0226".data.length ∧
      bigEndianValue (hexDecode "0226".data) = hexNumber "0226".data ∧
      0 ≤ i ∧ i < ring3.RingSize) ∧
    ring3.ComputeBlockIndex "0226" = some 550 ∧
    ring3.ComputeBlockIndex "02ee" = some 750 ∧
    hexNumber "0226".data = 550 ∧ hexNumber "02ee".data = 750 :=
  ⟨⟨by decide, by decide, by decide⟩,
    ComputeBlockIndex_value_mod ring3 "0226" (by decide) (by decide) (by decide),
    by decide, by decide, by decide, by decide⟩

/-- C14. For every ring and every address whose position
`p = ComputeNodeIndex(address)` is computed, `ConsistentHashRing.RemoveNode`
returns the ring with the same `RingSize` whose `Nodes` are exactly the nodes
with `Index ≠ p`, in their original order: a ring with no node at `p` is left
unchanged, and every node at position `p` is deleted, whatever its `Addr`. -/
theorem RemoveNode_filters_position (Sum256 : String → List Nat)
    (ms : ConsistentHashRing) (addr : String) (p : Int)
    (hp : ms.ComputeNodeIndex Sum256 addr = some p) :
    ∃ ms1, ms.RemoveNode Sum256 addr = some ms1 ∧ ms1.RingSize = ms.RingSize ∧
      ms1.Nodes = ms.Nodes.filter (fun n => n.Index ≠ p) ∧
      ((∀ n ∈ ms.Nodes, n.Index ≠ p) → ms1.Nodes = ms.Nodes) ∧
      (∀ n ∈ ms.Nodes, n.Index = p → n ∉ ms1.Nodes) ∧
      (∀ n ∈ ms.Nodes, n.Index ≠ p → n ∈ ms1.Nodes) := by
  unfold ConsistentHashRing.ComputeNodeIndex at hp
  refine ⟨{ ms with Nodes := ms.Nodes.filter fun n => n.Index ≠ p }, ?_, rfl, rfl, ?_, ?_, ?_⟩
  · simp only [ConsistentHashRing.RemoveNode, hp]
  · intro hfree
    exact filter_ne_self p ms.Nodes hfree
  · intro n _ hnp hmem
    have := (List.mem_filter.1 hmem).2
    simp [hnp] at this
  · intro n hn hnp
    exact List.mem_filter.2 ⟨hn, by simpa using hnp⟩

/-- Witness of C14: removing "jr" (position 250) from the four-node ring
gives the three-node ring; a node with another address at position 250 is
deleted as well. -/
theorem RemoveNode_filters_position_witness :
    ring4.ComputeNodeIndex sampleDigest "jr" = some 250 ∧
    (∃ ms1, ring4.RemoveNode sampleDigest "jr" = some ms1 ∧ ms1.RingSize = ring4.RingSize ∧
      ms1.Nodes = ring4.Nodes.filter (fun n => n.Index ≠ 250) ∧
      ((∀ n ∈ ring4.Nodes, n.Index ≠ 250) → ms1.Nodes = ring4.Nodes) ∧
      (∀ n ∈ ring4.Nodes, n.Index = 250 → n ∉ ms1.Nodes) ∧
      (∀ n ∈ ring4.Nodes, n.Index ≠ 250 → n ∈ ms1.Nodes)) ∧
    ring4.RemoveNode sampleDigest "jr" = some ring3 ∧
    ring3.RemoveNode sampleDigest "jr" = some ring3 ∧
    ConsistentHashRing.RemoveNode sampleDigest
      { RingSize := 1000, Nodes := [⟨"n100", 100⟩, ⟨"other", 250⟩] } "jr" =
      some { RingSize := 1000, Nodes := [⟨"n100", 100⟩] } :=
  ⟨by decide,
    RemoveNode_filters_position sampleDigest ring4 "jr" 250 (by decide),
    by decide, by decide, by decide⟩

/-- C15. The node `MetaStore.AddNode` asks to migrate owns the whole migrated
range: on a non-empty ring sorted ascending by Index, for an address whose
position `p` is unoccupied, `PrecedingNode p` returns a node `pre` and
`FindHostingNode (p + 1)` a node `succ`; `succ` is also `FindHostingNode p`
and `FindHostingNode x` for every point `x` of the circular interval
`(pre.Index, p]`; and, `p + 1` being representable as an `int`,
`MetaStore.AddNode` prepares exactly the dial target `succ` and the
instruction with `LowerIndex = pre.Index`, `UpperIndex = p` and `DestAddr` the
new address. -/
theorem successor_owns_migrated_range (Sum256 : String → List Nat)
    (ms : ConsistentHashRing) (addr : String) (p : Int)
    (hne : ms.Nodes ≠ []) (hs : Ascending ms.Nodes)
    (hp : ms.ComputeNodeIndex Sum256 addr = some p)
    (hfree : ∀ n ∈ ms.Nodes, n.Index ≠ p) :
    ∃ pre succ, ms.PrecedingNode p = some pre ∧ ms.FindHostingNode (p + 1) = some succ ∧
      ms.FindHostingNode p = some succ ∧
      (∀ x, inCircular pre.Index p x → ms.FindHostingNode x = some succ) ∧
      (p < 2 ^ 63 - 1 → ∀ fm,
        MetaStore.AddNode.prepare Sum256 { FileMetaMap := fm, BlockStoreRing := ms } addr =
          some (succ, { LowerIndex := pre.Index, UpperIndex := p, DestAddr := addr })) := by
  obtain ⟨pre, succ, hpre, hs1, hs0, hall⟩ := successor_cases ms p hne hs hfree
  refine ⟨pre, succ, hpre, hs1, hs0, hall, ?_⟩
  intro hlt fm
  have hnn := (hashMod_nonneg _ _ _ hp).2
  have hadd : addInt p 1 = p + 1 := addInt_one p ⟨by omega, hlt⟩
  simp only [MetaStore.AddNode.prepare, hp, hpre, hadd, hs1]

/-- Witness of C15 on the ring with Indexes 100, 400, 700 and the new
position 250: the successor is the node at 400, which owns (100, 250]. -/
theorem successor_owns_migrated_range_witness :
    (ring3.Nodes ≠ [] ∧ Ascending ring3.Nodes ∧
      ring3.ComputeNodeIndex sampleDigest "jr" = some 250 ∧
      (∀ n ∈ ring3.Nodes, n.Index ≠ 250) ∧ (250 : Int) < 2 ^ 63 - 1) ∧
    (∃ pre succ, ring3.PrecedingNode 250 = some pre ∧
      ring3.FindHostingNode (250 + 1) = some succ ∧
      ring3.FindHostingNode 250 = some succ ∧
      (∀ x, inCircular pre.Index 250 x → ring3.FindHostingNode x = some succ) ∧
      ((250 : Int) < 2 ^ 63 - 1 → ∀ fm,
        MetaStore.AddNode.prepare sampleDigest
          { FileMetaMap := fm, BlockStoreRing := ring3 } "jr" =
          some (succ, { LowerIndex := pre.Index, UpperIndex := 250, DestAddr := "jr" }))) ∧
    ring3.FindHostingNode 251 = some ⟨"n400", 400⟩ ∧
    ring3.PrecedingNode 250 = some ⟨"n100", 100⟩ ∧
    ring3.FindHostingNode 150 = some ⟨"n400", 400⟩ :=
  ⟨⟨by decide, by decide, by decide, by decide, by decide⟩,
    successor_owns_migrated_range sampleDigest ring3 "jr" 250
      (by decide) (by decide) (by decide) (by decide),
    by decide, by decide, by decide⟩

/-- C16. The successor named as migration destination by
`MetaStore.RemoveNode` inherits the leaving node's range: on a ring strictly
ascending by Index with at least two nodes that contains the node of the given
address at its position `p`, `ConsistentHashRing.RemoveNode` returns a ring
`ms1`; with `succ = FindHostingNode (p + 1)` and `h = FindHostingNode x` taken
before the removal, `FindHostingNode x` on `ms1` is `succ` when `h` is the
leaving node and is `h` otherwise; and, `p + 1` being representable as an
`int`, the instruction `MetaStore.RemoveNode` prepares has
`DestAddr = succ.Addr`, `UpperIndex = p` and `LowerIndex` the Index of
`PrecedingNode p`. -/
theorem successor_inherits_range (Sum256 : String → List Nat)
    (ms : ConsistentHashRing) (addr : String) (p x : Int)
    (hs : StrictAscending ms.Nodes) (hlen : 2 ≤ ms.Nodes.length)
    (hp : ms.ComputeNodeIndex Sum256 addr = some p)
    (hn : ({ Addr := addr, Index := p } : Node) ∈ ms.Nodes) :
    ∃ ms1 succ h, ms.RemoveNode Sum256 addr = some ms1 ∧
      ms.FindHostingNode (p + 1) = some succ ∧ ms.FindHostingNode x = some h ∧
      (h = { Addr := addr, Index := p } → ms1.FindHostingNode x = some succ) ∧
      (h ≠ { Addr := addr, Index := p } → ms1.FindHostingNode x = some h) ∧
      (p < 2 ^ 63 - 1 → ∀ fm, ∃ pre, ms.PrecedingNode p = some pre ∧
        MetaStore.RemoveNode.prepare Sum256 { FileMetaMap := fm, BlockStoreRing := ms } addr =
          some (succ,
            { LowerIndex := pre.Index, UpperIndex := p, DestAddr := succ.Addr })) := by
  have hne : ms.Nodes ≠ [] := List.ne_nil_of_mem hn
  have hasc := strict_ascending _ hs
  obtain ⟨m0, hm0, hm0p⟩ := strict_two_other ms.Nodes p hs hlen
  obtain ⟨succ, hsucc, hsm, hsc⟩ := findHostingNode_mem ms (p + 1) hne hasc
  obtain ⟨h, hh, hhm, hhc⟩ := findHostingNode_mem ms x hne hasc
  have hs1 : StrictAscending (ms.Nodes.filter fun n => n.Index ≠ p) := List.Pairwise.filter _ hs
  have hsuccp : succ.Index ≠ p := by
    rcases hsc with ⟨c1, _⟩ | ⟨c1, c2⟩
    · omega
    · have := c1 m0 hm0
      have := c2 m0 hm0
      omega
  have hrem : ms.RemoveNode Sum256 addr =
      some { ms with Nodes := ms.Nodes.filter fun n => n.Index ≠ p } := by
    unfold ConsistentHashRing.ComputeNodeIndex at hp
    simp only [ConsistentHashRing.RemoveNode, hp]
  refine ⟨_, succ, h, hrem, hsucc, hh, ?_, ?_, ?_⟩
  · intro hhn
    rw [findHostingNode_iff _ _ _ hs1]
    refine ⟨(removed_mem p _ _).2 ⟨hsm, hsuccp⟩, ?_⟩
    have hhp : h.Index = p := by rw [hhn]
    rcases hhc with ⟨a1, a2⟩ | ⟨a1, a2⟩
    · rcases hsc with ⟨c1, c2⟩ | ⟨c1, c2⟩
      · refine Or.inl ⟨by omega, ?_⟩
        intro m hm hxm
        obtain ⟨hmL, hmp⟩ := (removed_mem p _ _).1 hm
        have := a2 m hmL hxm
        exact c2 m hmL (by omega)
      · refine Or.inr ⟨?_, ?_⟩
        · intro m hm
          obtain ⟨hmL, hmp⟩ := (removed_mem p _ _).1 hm
          by_contra hc
          have := a2 m hmL (by omega)
          have := c1 m hmL
          omega
        · intro m hm
          exact c2 m ((removed_mem p _ _).1 hm).1
    · rcases hsc with ⟨c1, c2⟩ | ⟨c1, c2⟩
      · refine Or.inr ⟨?_, ?_⟩
        · intro m hm
          exact a1 m ((removed_mem p _ _).1 hm).1
        · intro m hm
          obtain ⟨hmL, hmp⟩ := (removed_mem p _ _).1 hm
          have := a2 m hmL
          exact c2 m hmL (by omega)
      · have := c1 m0 hm0
        have := a2 m0 hm0
        omega
  · intro hhn
    have hhp : h.Index ≠ p := by
      intro hc
      exact hhn (strict_index_inj ms.Nodes hs h _ hhm hn hc)
    rw [findHostingNode_iff _ _ _ hs1]
    refine ⟨(removed_mem p _ _).2 ⟨hhm, hhp⟩, ?_⟩
    rcases hhc with ⟨a1, a2⟩ | ⟨a1, a2⟩
    · exact Or.inl ⟨a1, fun m hm hxm => a2 m ((removed_mem p _ _).1 hm).1 hxm⟩
    · exact Or.inr ⟨fun m hm => a1 m ((removed_mem p _ _).1 hm).1,
        fun m hm => a2 m ((removed_mem p _ _).1 hm).1⟩
  · intro hlt fm
    obtain ⟨pre, hpre⟩ := precedingNode_some ms p hne
    have hnn := (hashMod_nonneg _ _ _ hp).2
    have hadd : addInt p 1 = p + 1 := addInt_one p ⟨by omega, hlt⟩
    exact ⟨pre, hpre, by simp only [MetaStore.RemoveNode.prepare, hp, hpre, hadd, hsucc]⟩

/-- Witness of C16 on the four-node ring with Indexes 100, 250, 400, 700:
after "jr" (position 250) has left, point 150 is hosted by the node at 400,
the successor, and point 550 is still hosted by the node at 700. -/
theorem successor_inherits_range_witness :
    (StrictAscending ring4.Nodes ∧ 2 ≤ ring4.Nodes.length ∧
      ring4.ComputeNodeIndex sampleDigest "jr" = some 250 ∧
      ({ Addr := "jr", Index := 250 } : Node) ∈ ring4.Nodes) ∧
    (∃ ms1 succ h, ring4.RemoveNode sampleDigest "jr" = some ms1 ∧
      ring4.FindHostingNode (250 + 1) = some succ ∧ ring4.FindHostingNode 150 = some h ∧
      (h = { Addr := "jr", Index := 250 } → ms1.FindHostingNode 150 = some succ) ∧
      (h ≠ { Addr := "jr", Index := 250 } → ms1.FindHostingNode 150 = some h) ∧
      ((250 : Int) < 2 ^ 63 - 1 → ∀ fm, ∃ pre, ring4.PrecedingNode 250 = some pre ∧
        MetaStore.RemoveNode.prepare sampleDigest
          { FileMetaMap := fm, BlockStoreRing := ring4 } "jr" =
          some (succ,
            { LowerIndex := pre.Index, UpperIndex := 250, DestAddr := succ.Addr }))) ∧
    ring4.FindHostingNode 150 = some ⟨"jr", 250⟩ ∧
    ring4.FindHostingNode 251 = some ⟨"n400", 400⟩ ∧
    ring3.FindHostingNode 150 = some ⟨"n400", 400⟩ ∧
    ring4.FindHostingNode 550 = some ⟨"n700", 700⟩ ∧
    ring3.FindHostingNode 550 = some ⟨"n700", 700⟩ :=
  ⟨⟨by decide, by decide, by decide, by decide⟩,
    successor_inherits_range sampleDigest ring4 "jr" 250 150
      (by decide) (by decide) (by decide) (by decide),
    by decide, by decide, by decide, by decide, by decide⟩

/-- C17. The ring invariant "strictly ascending by Index" is preserved by both
mutations: on a ring strictly ascending by Index, for an address with position
`p`, `ConsistentHashRing.AddNode` on a non-empty ring returns a ring whose
`Nodes` are strictly ascending again; when `p` is unoccupied they are the old
nodes with the new node put in once, between a front part and a back part of
the old list; when `p` collides with an existing node they are the old list
unchanged.  `ConsistentHashRing.RemoveNode` returns a ring whose `Nodes` are
strictly ascending as well. -/
theorem ring_invariant_preserved (Sum256 : String → List Nat)
    (ms : ConsistentHashRing) (addr : String) (p : Int)
    (hs : StrictAscending ms.Nodes)
    (hp : ms.ComputeNodeIndex Sum256 addr = some p) :
    (ms.Nodes ≠ [] → ∃ ms1, ms.AddNode Sum256 addr = some ms1 ∧
      StrictAscending ms1.Nodes ∧ ms1.RingSize = ms.RingSize ∧
      ((∀ n ∈ ms.Nodes, n.Index ≠ p) → ∃ front back, ms.Nodes = front ++ back ∧
        ms1.Nodes = front ++ ({ Addr := addr, Index := p } : Node) :: back) ∧
      ((∃ n ∈ ms.Nodes, n.Index = p) → ms1.Nodes = ms.Nodes)) ∧
    (∃ ms2, ms.RemoveNode Sum256 addr = some ms2 ∧ StrictAscending ms2.Nodes ∧
      ms2.RingSize = ms.RingSize) := by
  have hasc := strict_ascending _ hs
  constructor
  · intro hne
    by_cases hcol : ∃ n ∈ ms.Nodes, n.Index = p
    · refine ⟨ms, addNode_collide Sum256 ms addr p hasc hp hcol, hs, rfl, ?_, fun _ => rfl⟩
      intro hfree
      obtain ⟨n, hn, hnp⟩ := hcol
      exact absurd hnp (hfree n hn)
    · have hfree : ∀ n ∈ ms.Nodes, n.Index ≠ p := fun n hn hnp => hcol ⟨n, hn, hnp⟩
      refine ⟨_, addNode_eq Sum256 ms addr p hne hasc hp hfree,
        inserted_strict p _ ms.Nodes rfl hs, rfl, ?_, ?_⟩
      · intro _
        exact ⟨_, _, (filter_split p ms.Nodes hasc hfree).symm, rfl⟩
      · intro hc
        exact absurd hc hcol
  · unfold ConsistentHashRing.ComputeNodeIndex at hp
    refine ⟨{ ms with Nodes := ms.Nodes.filter fun n => n.Index ≠ p }, ?_,
      List.Pairwise.filter _ hs, rfl⟩
    simp only [ConsistentHashRing.RemoveNode, hp]

/-- Witness of C17 on the ring with Indexes 100, 400, 700: adding "jr"
(position 250) puts it between 100 and 400; adding it a second time, or
removing it, keeps the nodes strictly ascending. -/
theorem ring_invariant_preserved_witness :
    (StrictAscending ring3.Nodes ∧ ring3.ComputeNodeIndex sampleDigest "jr" = some 250 ∧
      ring3.Nodes ≠ [] ∧ (∀ n ∈ ring3.Nodes, n.Index ≠ 250) ∧
      StrictAscending ring4.Nodes ∧ ring4.ComputeNodeIndex sampleDigest "jr" = some 250 ∧
      ring4.Nodes ≠ [] ∧ ∃ n ∈ ring4.Nodes, n.Index = 250) ∧
    (∃ ms1, ring3.AddNode sampleDigest "jr" = some ms1 ∧
      StrictAscending ms1.Nodes ∧ ms1.RingSize = ring3.RingSize ∧
      ((∀ n ∈ ring3.Nodes, n.Index ≠ 250) → ∃ front back, ring3.Nodes = front ++ back ∧
        ms1.Nodes = front ++ ({ Addr := "jr", Index := 250 } : Node) :: back) ∧
      ((∃ n ∈ ring3.Nodes, n.Index = 250) → ms1.Nodes = ring3.Nodes)) ∧
    (∃ ms2, ring4.RemoveNode sampleDigest "jr" = some ms2 ∧ StrictAscending ms2.Nodes ∧
      ms2.RingSize = ring4.RingSize) ∧
    ring3.AddNode sampleDigest "jr" = some ring4 ∧
    ring4.AddNode sampleDigest "jr" = some ring4 ∧
    ring4.RemoveNode sampleDigest "jr" = some ring3 :=
  ⟨⟨by decide, by decide, by decide, by decide, by decide, by decide, by decide, by decide⟩,
    (ring_invariant_preserved sampleDigest ring3 "jr" 250 (by decide) (by decide)).1
      (by decide),
    (ring_invariant_preserved sampleDigest ring4 "jr" 250 (by decide) (by decide)).2,
    by decide, by decide, by decide⟩

/-- C18. Versions count accepted updates: starting from `NewMetaStore` and
after every finite sequence of `UpdateFile` calls, for every filename `f` the
stored Version of `f` is the number of calls for `f` in the sequence that
returned no error, as a Go `int` (`int64`), which is that number itself for
every sequence of fewer than `2 ^ 63` calls; `f` has no record exactly when
the number is 0.  Hence, within that length, the version does not decrease
when the sequence is continued, an accepted update of `f` raises its version
by exactly 1, and a rejected update does not change it. -/
theorem version_counts_accepted (ring : ConsistentHashRing)
    (calls more : List FileMetaData) (f : String) :
    (runUpdates (NewMetaStore ring) calls).versionOf f =
      int64 (acceptedCount f (NewMetaStore ring) calls) ∧
    ((runUpdates (NewMetaStore ring) calls).FileMetaMap.lookup f = none ↔
      acceptedCount f (NewMetaStore ring) calls = 0) ∧
    ((calls.length : Int) < 2 ^ 63 →
      (runUpdates (NewMetaStore ring) calls).versionOf f =
        acceptedCount f (NewMetaStore ring) calls) ∧
    (((calls ++ more).length : Int) < 2 ^ 63 →
      (runUpdates (NewMetaStore ring) calls).versionOf f ≤
        (runUpdates (NewMetaStore ring) (calls ++ more)).versionOf f) ∧
    (∀ c, (calls.length : Int) + 1 < 2 ^ 63 → c.Filename = f →
      ((runUpdates (NewMetaStore ring) calls).UpdateFile c).err = none →
      ((runUpdates (NewMetaStore ring) calls).UpdateFile c).store.versionOf f =
        (runUpdates (NewMetaStore ring) calls).versionOf f + 1) ∧
    (∀ c, ((runUpdates (NewMetaStore ring) calls).UpdateFile c).err ≠ none →
      ((runUpdates (NewMetaStore ring) calls).UpdateFile c).store.versionOf f =
        (runUpdates (NewMetaStore ring) calls).versionOf f) := by
  have hstart : ∀ l : List FileMetaData,
      (runUpdates (NewMetaStore ring) l).versionOf f =
        int64 (acceptedCount f (NewMetaStore ring) l) ∧
      ((runUpdates (NewMetaStore ring) l).FileMetaMap.lookup f = none ↔
        acceptedCount f (NewMetaStore ring) l = 0) := by
    intro l
    have h0 : (NewMetaStore ring).versionOf f = int64 ((0 : Nat) : Int) := by
      simp [NewMetaStore, MetaStore.versionOf, AList.lookup_empty, int64]
    have := count_invariant f l (NewMetaStore ring) 0 h0
      (by simp [NewMetaStore, AList.lookup_empty])
    simpa using this
  have hsmall : ∀ l : List FileMetaData, (l.length : Int) < 2 ^ 63 →
      (runUpdates (NewMetaStore ring) l).versionOf f =
        acceptedCount f (NewMetaStore ring) l := by
    intro l hl
    rw [(hstart l).1]
    have := acceptedCount_le f l (NewMetaStore ring)
    exact int64_small _ ⟨by omega, by omega⟩
  refine ⟨(hstart calls).1, (hstart calls).2, hsmall calls, ?_, ?_, ?_⟩
  · intro hl
    have hl1 : (calls.length : Int) < 2 ^ 63 := by
      rw [List.length_append] at hl
      push_cast at hl
      omega
    rw [hsmall calls hl1, hsmall (calls ++ more) hl, acceptedCount_append]
    push_cast
    omega
  · intro c hl hf herr
    rcases updateFile_step (runUpdates (NewMetaStore ring) calls) c f with
      ⟨_, _, hver, _⟩ | ⟨hno, _, _⟩
    · rw [hver]
      apply addInt_one
      rw [hsmall calls (by omega)]
      have := acceptedCount_le f calls (NewMetaStore ring)
      constructor <;> omega
    · exact absurd ⟨hf, herr⟩ hno
  · intro c herr
    rcases updateFile_step (runUpdates (NewMetaStore ring) calls) c f with
      ⟨hok, _, _, _⟩ | ⟨_, hver, _⟩
    · exact absurd hok herr
    · exact hver

/-- Witness of C18: of the calls with versions 1, 1, 3, 2 for the file "f"
the first and the last are accepted, and the stored Version is 2. -/
theorem version_counts_accepted_witness :
    ((sampleCalls.length : Int) < 2 ^ 63) ∧
    ((runUpdates (NewMetaStore ring3) sampleCalls).versionOf "f" =
      acceptedCount "f" (NewMetaStore ring3) sampleCalls) ∧
    acceptedCount "f" (NewMetaStore ring3) sampleCalls = 2 ∧
    (runUpdates (NewMetaStore ring3) sampleCalls).versionOf "f" = 2 ∧
    acceptedCount "g" (NewMetaStore ring3) sampleCalls = 0 ∧
    (runUpdates (NewMetaStore ring3) sampleCalls).FileMetaMap.lookup "g" = none :=
  ⟨by decide,
    (version_counts_accepted ring3 sampleCalls [] "f").2.2.1 (by decide),
    by decide, by decide, by decide, by decide⟩

/-- C19. `ConsistentHashRing.AddNode` on a ring without nodes returns no ring
at all (the call panics), for every address; so the ring built by
`NewConsistentHashRing` from an empty address list, and a ring that
`RemoveNode` has emptied, cannot regain a node through `AddNode`. -/
theorem AddNode_on_empty_ring_fails (Sum256 : String → List Nat)
    (ms : ConsistentHashRing) (addr : String) :
    (ms.Nodes = [] → ms.AddNode Sum256 addr = none) ∧
    (∀ ringSize, ∃ r, NewConsistentHashRing Sum256 ringSize [] = some r ∧ r.Nodes = [] ∧
      r.AddNode Sum256 addr = none) ∧
    (∀ gone ms1, ms.RemoveNode Sum256 gone = some ms1 → ms1.Nodes = [] →
      ms1.AddNode Sum256 addr = none) :=
  ⟨ring_addNode_empty Sum256 ms addr,
    fun ringSize => ⟨{ RingSize := ringSize, Nodes := [] }, rfl, rfl,
      ring_addNode_empty Sum256 _ addr rfl⟩,
    fun _ ms1 _ hempty => ring_addNode_empty Sum256 ms1 addr hempty⟩

/-- Witness of C19: the empty ring of size 1000 rejects "jr", and the one-node
ring emptied by removing "jr" rejects it as well. -/
theorem AddNode_on_empty_ring_fails_witness :
    (ring0.Nodes = [] ∧ ring1.RemoveNode sampleDigest "jr" = some ring0) ∧
    ring0.AddNode sampleDigest "jr" = none ∧
    ring0.AddNode sampleDigest "n100" = none :=
  ⟨⟨by decide, by decide⟩,
    (AddNode_on_empty_ring_fails sampleDigest ring0 "jr").1 (by decide),
    (AddNode_on_empty_ring_fails sampleDigest ring1 "n100").2.2 "jr" ring0
      (by decide) (by decide)⟩

/-- C20. For every positive `ringSize` and every address list,
`NewConsistentHashRing` returns a ring with as many nodes as input entries,
sorted ascending (not necessarily strictly) by Index; every position `q`
occurs among the nodes as often as among the computed positions of the input
entries; every node carries the `Addr` of the last input entry with the
node's position; and an input address that is not the last entry with its
position is the `Addr` of no node of the ring. -/
theorem NewConsistentHashRing_collisions (Sum256 : String → List Nat)
    (ringSize : Int) (addrs : List String) (hpos : 0 < ringSize) :
    ∃ ring, NewConsistentHashRing Sum256 ringSize addrs = some ring ∧
      ring.RingSize = ringSize ∧
      ring.Nodes.length = addrs.length ∧ Ascending ring.Nodes ∧
      (∀ q : Int, (ring.Nodes.filter fun n => n.Index = q).length =
        (addrs.filter fun a => ring.ComputeNodeIndex Sum256 a = some q).length) ∧
      (∀ n ∈ ring.Nodes,
        (addrs.filter fun a => ring.ComputeNodeIndex Sum256 a = some n.Index).getLast? =
          some n.Addr) ∧
      (∀ a q, ring.ComputeNodeIndex Sum256 a = some q →
        (addrs.filter fun b => ring.ComputeNodeIndex Sum256 b = some q).getLast? ≠ some a →
        ∀ n ∈ ring.Nodes, n.Addr ≠ a) := by
  have hne : ringSize ≠ 0 := by omega
  obtain ⟨ring, hring, hsize, hlen, hasc, hcount, hlast⟩ :=
    newRing_of_pos Sum256 ringSize
      (fun a => (setBytes (hexDecode (hexEncode (Sum256 a)).data) : Int) % ringSize)
      (fun a => hashMod_some _ _ hne) addrs
  have hcomp : ∀ a, ring.ComputeNodeIndex Sum256 a =
      some ((setBytes (hexDecode (hexEncode (Sum256 a)).data) : Int) % ringSize) := by
    intro a
    rw [ConsistentHashRing.ComputeNodeIndex, hsize, hashMod_some _ _ hne]
  have hfilter : ∀ q : Int,
      (addrs.filter fun a => ring.ComputeNodeIndex Sum256 a = some q) =
        addrs.filter fun a =>
          (setBytes (hexDecode (hexEncode (Sum256 a)).data) : Int) % ringSize = q := by
    intro q
    apply List.filter_congr
    intro a _
    simp [hcomp]
  refine ⟨ring, hring, hsize, hlen, hasc, ?_, ?_, ?_⟩
  · intro q
    rw [hfilter]
    exact hcount q
  · intro n hn
    rw [hfilter]
    exact hlast n hn
  · intro a q haq hnot n hn hna
    have h1 := hlast n hn
    rw [hna] at h1
    have hmem := List.mem_of_mem_getLast? h1
    have hpa := (List.mem_filter.1 hmem).2
    simp only [decide_eq_true_eq] at hpa
    rw [hcomp] at haq
    have hq : n.Index = q := by
      rw [← hpa]
      exact Option.some.inj haq
    apply hnot
    rw [hfilter, ← hq]
    exact h1

/-- Witness of C20: with modulus 10 the addresses "a" and "k" both have
position 7 under the stand-in digest and "b" has position 8; the ring holds
three nodes, position 7 twice, both with address "k", and "a" nowhere. -/
theorem NewConsistentHashRing_collisions_witness :
    ((0 : Int) < 10) ∧
    (∃ ring, NewConsistentHashRing sampleDigest 10 ["a", "b", "k"] = some ring ∧
      ring.RingSize = 10 ∧
      ring.Nodes.length = ["a", "b", "k"].length ∧ Ascending ring.Nodes ∧
      (∀ q : Int, (ring.Nodes.filter fun n => n.Index = q).length =
        (["a", "b", "k"].filter fun a =>
          ring.ComputeNodeIndex sampleDigest a = some q).length) ∧
      (∀ n ∈ ring.Nodes,
        (["a", "b", "k"].filter fun a =>
          ring.ComputeNodeIndex sampleDigest a = some n.Index).getLast? = some n.Addr) ∧
      (∀ a q, ring.ComputeNodeIndex sampleDigest a = some q →
        (["a", "b", "k"].filter fun b =>
          ring.ComputeNodeIndex sampleDigest b = some q).getLast? ≠ some a →
        ∀ n ∈ ring.Nodes, n.Addr ≠ a)) ∧
    NewConsistentHashRing sampleDigest 10 ["a", "b", "k"] =
      some { RingSize := 10, Nodes := [⟨"k", 7⟩, ⟨"k", 7⟩, ⟨"b", 8⟩] } :=
  ⟨by decide,
    NewConsistentHashRing_collisions sampleDigest 10 ["a", "b", "k"] (by decide),
    by decide⟩

end Surfstore
